import Mathlib

/-!
# Verification of the external-adapter cache layer

Shallow embedding of the repository's cache-aside core:

* `getWithCoalescing` and `exponentialBackOffMs` (the coalescing waiter and
  its backoff helper, from `util.ts`),
* the cache-key canonicalization pipeline `hash` / `getKeyData` /
  `getHashOpts` together with the three configured key lists,
* the `RedisCache` backing-store client (per-call timeout wrapping with
  outcome metrics, flight markers, `close`),
* `redactOptions` (secret masking with JS regex replaces).

Durations are modelled in milliseconds as `Nat`.  Asynchronous calls are
modelled by their settle time plus result; a sleep is recorded as the slept
duration.  Machine-level JS number behaviour is out of scope: the payload
scalars that occur in cache keys are modelled as integers and strings.
-/

namespace Spec2Proof

/-! ## Coalescing waiter (`getWithCoalescing`, from util.ts)

The JS source polls `get`/`isInFlight` and sleeps in between.  We record the
full visible trace of one run: the returned entry, the 1-based retry counts
at which `get` and `isInFlight` were called, and the slept intervals.
`CacheEntry` values are JS objects (hence truthy), so the source's
`if (entry)` test is modelled by `Option.isSome`. -/

structure WaiterTrace (Entry : Type) where
  result : Option Entry
  gets : List Nat
  flightChecks : List Nat
  sleeps : List Nat
  deriving Repr, DecidableEq

/-- The inner `_self` of `getWithCoalescing`: `retries` is the fixed initial
budget used to compute `retryCount = retries - _retries + 1`; the argument is
the remaining budget `_retries`. -/
def getWithCoalescingGo {Entry : Type} (get : Nat → Option Entry)
    (isInFlight : Nat → Bool) (interval : Nat → Nat) (retries : Nat) :
    Nat → WaiterTrace Entry
  | 0 => ⟨none, [], [], []⟩
  | r + 1 =>
    let retryCount := retries - (r + 1) + 1
    match get retryCount with
    | some entry => ⟨some entry, [retryCount], [], []⟩
    | none =>
      if isInFlight retryCount then
        let rest := getWithCoalescingGo get isInFlight interval retries r
        ⟨rest.result, retryCount :: rest.gets, retryCount :: rest.flightChecks,
          interval retryCount :: rest.sleeps⟩
      else ⟨none, [retryCount], [retryCount], []⟩

/-- The `getWithCoalescing` from util.ts: runs `_self` on the initial budget. -/
def getWithCoalescing {Entry : Type} (get : Nat → Option Entry)
    (isInFlight : Nat → Bool) (retries : Nat) (interval : Nat → Nat) :
    WaiterTrace Entry :=
  getWithCoalescingGo get isInFlight interval retries retries

/-- The coalescing-waiter loop exactly as the specification words it
(`awaitProduction`, spec section 4.4): while budget remains, attempt `get` on
the current 1-based attempt number `k`; a present entry returns immediately;
otherwise a false `isInFlight` returns absent immediately; otherwise sleep
`interval k` and continue with attempt `k + 1` and one fewer retry. -/
def awaitProduction {Entry : Type} (get : Nat → Option Entry)
    (isInFlight : Nat → Bool) (interval : Nat → Nat) :
    Nat → Nat → WaiterTrace Entry
  | _, 0 => ⟨none, [], [], []⟩
  | k, r + 1 =>
    match get k with
    | some entry => ⟨some entry, [k], [], []⟩
    | none =>
      if isInFlight k then
        let rest := awaitProduction get isInFlight interval (k + 1) r
        ⟨rest.result, k :: rest.gets, k :: rest.flightChecks,
          interval k :: rest.sleeps⟩
      else ⟨none, [k], [k], []⟩

/-- Exponential backoff from util.ts:
`Math.min(max, interval * coefficient ** (retryCount - 1))`.
The source's defaults are `retryCount = 1`, `interval = 100`, `max = 1000`,
`coefficient = 2`; the function is used with 1-based retry counts. -/
def exponentialBackOffMs (retryCount : Nat := 1) (interval : Nat := 100)
    (max : Nat := 1000) (coefficient : Nat := 2) : Nat :=
  Nat.min max (interval * coefficient ^ (retryCount - 1))

theorem getWithCoalescingGo_eq_awaitProduction {Entry : Type}
    (get : Nat → Option Entry) (isInFlight : Nat → Bool)
    (interval : Nat → Nat) (retries : Nat) :
    ∀ r : Nat, r ≤ retries →
      getWithCoalescingGo get isInFlight interval retries r =
        awaitProduction get isInFlight interval (retries - r + 1) r := by
  intro r
  induction r with
  | zero => intro _; rfl
  | succ n ih =>
    intro hle
    have hn : n ≤ retries := Nat.le_of_succ_le hle
    have harith : retries - (n + 1) + 1 + 1 = retries - n + 1 := by omega
    simp only [getWithCoalescingGo, awaitProduction]
    cases get (retries - (n + 1) + 1) with
    | some e => rfl
    | none =>
      cases h : isInFlight (retries - (n + 1) + 1) with
      | false => simp [h]
      | true => simp [h, ih hn, harith]

theorem getWithCoalescingGo_length_le {Entry : Type} (get : Nat → Option Entry)
    (isInFlight : Nat → Bool) (interval : Nat → Nat) (retries : Nat) :
    ∀ r : Nat,
      (getWithCoalescingGo get isInFlight interval retries r).gets.length ≤ r ∧
      (getWithCoalescingGo get isInFlight interval retries r).flightChecks.length ≤ r ∧
      (getWithCoalescingGo get isInFlight interval retries r).sleeps.length ≤ r ∧
      ∀ p ∈ (getWithCoalescingGo get isInFlight interval retries r).sleeps,
        ∃ n : Nat, p = interval n := by
  intro r
  induction r with
  | zero => simp [getWithCoalescingGo]
  | succ n ih =>
    simp only [getWithCoalescingGo]
    cases get (retries - (n + 1) + 1) with
    | some e => simp
    | none =>
      cases h : isInFlight (retries - (n + 1) + 1) with
      | false => simp [h]
      | true =>
        simp only [h, if_true]
        refine ⟨?_, ?_, ?_, ?_⟩
        · simpa using Nat.succ_le_succ ih.1
        · simpa using Nat.succ_le_succ ih.2.1
        · simpa using Nat.succ_le_succ ih.2.2.1
        · intro p hp
          rcases List.mem_cons.mp hp with h1 | h2
          · exact ⟨retries - (n + 1) + 1, h1⟩
          · exact ih.2.2.2 p h2

theorem list_sum_le_length_mul (l : List Nat) (bound : Nat)
    (hb : ∀ p ∈ l, p ≤ bound) : l.sum ≤ l.length * bound := by
  induction l with
  | nil => simp
  | cons a t ih =>
    simp only [List.sum_cons, List.length_cons]
    have ha : a ≤ bound := hb a (List.mem_cons_self a t)
    have ht := ih (fun p hp => hb p (List.mem_cons_of_mem a hp))
    calc a + t.sum ≤ bound + t.length * bound := Nat.add_le_add ha ht
      _ = (t.length + 1) * bound := by ring

/-! ## Cache-key canonicalization (`hash`, `getKeyData`, `getHashOpts`)

Request payloads are structured JS values.  Numeric scalars are modelled as
integers (the payload fields hashed into cache keys are ids, amounts and
symbols; float formatting is irrelevant to the claims below). -/

inductive JsValue where
  | null : JsValue
  | bool (b : Bool) : JsValue
  | num (n : Int) : JsValue
  | str (s : String) : JsValue
  | arr (elems : List JsValue) : JsValue
  | obj (fields : List (String × JsValue)) : JsValue
  deriving Repr

/-- JS truthiness of a value (`!data` in the source). -/
def jsTruthy : JsValue → Bool
  | .null => false
  | .bool b => b
  | .num n => n ≠ 0
  | .str s => s ≠ ""
  | .arr _ => true
  | .obj _ => true

/-- JS truthiness of a possibly-undefined value. -/
def jsTruthyOpt : Option JsValue → Bool
  | none => false
  | some v => jsTruthy v

/-- Insertion step of sorting an object's fields by key, realizing the
`Object.keys(object).sort()` step of the object-hash canonicalization. -/
def insertKey (a : String × JsValue) :
    List (String × JsValue) → List (String × JsValue)
  | [] => [a]
  | b :: l => if a.1 ≤ b.1 then a :: b :: l else b :: insertKey a l

/-- Sort an object's field list by key (insertion sort; for the duplicate-free
key lists of JS objects this is the unique key-ordered arrangement). -/
def sortByKey : List (String × JsValue) → List (String × JsValue)
  | [] => []
  | a :: l => insertKey a (sortByKey l)

mutual

/-- Canonical form of a value as digested by object-hash with the source's
options (`respectType: false`, `unorderedSets: false`): object keys are
sorted, array order is kept, scalars are kept as-is. -/
def canonVal : JsValue → JsValue
  | .null => .null
  | .bool b => .bool b
  | .num n => .num n
  | .str s => .str s
  | .arr xs => .arr (canonList xs)
  | .obj fs => .obj (sortByKey (canonFields fs))

def canonList : List JsValue → List JsValue
  | [] => []
  | x :: xs => canonVal x :: canonList xs

def canonFields : List (String × JsValue) → List (String × JsValue)
  | [] => []
  | (k, v) :: fs => (k, canonVal v) :: canonFields fs

end

/-- Options passed to object-hash, as far as the key-derivation behaviour is
concerned: the source fixes `algorithm: sha1, encoding: hex,
unorderedSets: false, respectType: false, respectFunctionProperties: false,
respectFunctionNames: false` and only `excludeKeys` varies. -/
structure HashOpts where
  excludeKeys : String → Bool

/-- Modelled from the spec: the object-hash library call
`objectHash(value, opts)`.  Missing from src/: only its call sites are in the
repository.  Per the spec the digest "normalizes object key order before
digesting", "treats array/sequence order as significant", ignores run-time
type tags, drops the `excludeKeys` deny-list of top-level fields, and is a
fixed deterministic cryptographic digest.  The sha1-hex digest step is
modelled as the identity on the canonical form (a collision-free stand-in:
two inputs collide exactly when their canonicalizations coincide). -/
def objectHash (opts : HashOpts) (v : JsValue) : JsValue :=
  match v with
  | .obj fs =>
    .obj (sortByKey (canonFields (fs.filter (fun kv => !opts.excludeKeys kv.1))))
  | v => canonVal v

/-- The `excludableAdapterRequestProperties` from util.ts: the built-in volatile
top-level keys, extended with the comma-split entries of
`CACHE_KEY_IGNORED_PROPS` (modelled as the already-split list
`envIgnored`). -/
def excludableAdapterRequestProperties (envIgnored : List String)
    (p : String) : Bool :=
  p ∈ (["id", "maxAge", "meta", "debug", "rateLimitMaxAge", "metricsMeta"] ++
    envIgnored)

/-- The `includableAdapterRequestProperties` from util.ts: `['data']` extended
with the comma-split entries of `CACHE_KEY_INCLUDED_PROPS`. -/
def includableAdapterRequestProperties (envIncluded : List String) :
    List String :=
  "data" :: envIncluded

/-- The `excludableInternalAdapterRequestProperties` from util.ts: keys dropped
within `data` in include mode. -/
def excludableInternalAdapterRequestProperties : List String :=
  ["resultPath", "overrides", "tokenOverrides", "includes"]

/-- First binding of a key in an object's field list (lodash `pick` reads the
first own property with the given name; JS field lists are duplicate-free). -/
def alookup (k : String) : List (String × JsValue) → Option JsValue
  | [] => none
  | (k', v) :: fs => if k' = k then some v else alookup k fs

/-- lodash `pick(data, props)`: the object formed by the listed top-level
properties that are present, in list order; any non-object input yields the
empty object. -/
def jsPick (props : List String) : Option JsValue → JsValue
  | some (.obj fs) =>
    .obj (props.filterMap (fun p => (alookup p fs).map (fun v => (p, v))))
  | _ => .obj []

/-- Drop the fields named in `ps` from an object value; leave any non-object
value unchanged (the second half of a lodash `omit` with a dotted path). -/
def removeKeys (ps : List String) : JsValue → JsValue
  | .obj gs => .obj (gs.filter (fun kv => !(kv.1 ∈ ps : Bool)))
  | v => v

/-- lodash `omit(picked, ['data.p', ...])`: remove the listed sub-keys from
the value of the top-level `data` field, if that value is an object. -/
def omitDataPaths (ps : List String) : JsValue → JsValue
  | .obj fs =>
    .obj (fs.map (fun kv =>
      if kv.1 = "data" then (kv.1, removeKeys ps kv.2) else kv))
  | v => v

/-- The `getKeyData` from util.ts:
`omit(pick(data, includableAdapterRequestProperties),
      excludableInternalAdapterRequestProperties.map(p => 'data.' + p))`. -/
def getKeyData (envIncluded : List String) (data : Option JsValue) : JsValue :=
  omitDataPaths excludableInternalAdapterRequestProperties
    (jsPick (includableAdapterRequestProperties envIncluded) data)

/-- The `getHashOpts` from util.ts: fixed options whose `excludeKeys` is
membership in `excludableAdapterRequestProperties`. -/
def getHashOpts (envIgnored : List String) : HashOpts :=
  ⟨excludableAdapterRequestProperties envIgnored⟩

inductive HashMode where
  | includeMode : HashMode
  | excludeMode : HashMode
  deriving Repr, DecidableEq

/-- The `hash` from util.ts:
`mode === 'include' || !data ? objectHash(getKeyData(data), hashOptions)
                             : objectHash(data, getHashOpts())`. -/
def hash (envIgnored envIncluded : List String) (data : Option JsValue)
    (hashOptions : HashOpts) (mode : HashMode) : JsValue :=
  if mode = .includeMode ∨ !jsTruthyOpt data then
    objectHash hashOptions (getKeyData envIncluded data)
  else
    objectHash (getHashOpts envIgnored) ((data).getD .null)

/-- Two payloads are field-order permutations of each other: identical
scalars, arrays pointwise related (array order is significant), and objects
related by permuting the field list and relating values key-by-key.  JS
objects never carry duplicate keys, which the `obj` constructor records as a
`Nodup` side condition on the left key list. -/
inductive KeyPerm : JsValue → JsValue → Prop where
  | null : KeyPerm .null .null
  | bool (b : Bool) : KeyPerm (.bool b) (.bool b)
  | num (n : Int) : KeyPerm (.num n) (.num n)
  | str (s : String) : KeyPerm (.str s) (.str s)
  | arr (xs ys : List JsValue) (hl : xs.length = ys.length)
      (hv : ∀ p ∈ xs.zip ys, KeyPerm p.1 p.2) : KeyPerm (.arr xs) (.arr ys)
  | obj (fs hs gs : List (String × JsValue)) (nd : (fs.map Prod.fst).Nodup)
      (hperm : fs.Perm hs) (hl : hs.length = gs.length)
      (hk : ∀ p ∈ hs.zip gs, p.1.1 = p.2.1)
      (hv : ∀ p ∈ hs.zip gs, KeyPerm p.1.2 p.2.2) : KeyPerm (.obj fs) (.obj gs)

theorem insertKey_perm (a : String × JsValue) (l : List (String × JsValue)) :
    (insertKey a l).Perm (a :: l) := by
  induction l with
  | nil => simp [insertKey]
  | cons b t ih =>
    simp only [insertKey]
    by_cases h : a.1 ≤ b.1
    · simp [h]
    · simp only [h, if_false]
      exact (ih.cons b).trans (List.Perm.swap a b t)

theorem sortByKey_perm (l : List (String × JsValue)) :
    (sortByKey l).Perm l := by
  induction l with
  | nil => exact List.Perm.refl _
  | cons a t ih =>
    simp only [sortByKey]
    exact (insertKey_perm a (sortByKey t)).trans (ih.cons a)

theorem insertKey_comm (a b : String × JsValue) (hab : a.1 ≠ b.1) :
    ∀ l : List (String × JsValue),
      insertKey a (insertKey b l) = insertKey b (insertKey a l) := by
  intro l
  induction l with
  | nil =>
    rcases le_total a.1 b.1 with h | h
    · have hba : ¬ b.1 ≤ a.1 := fun h' => hab (le_antisymm h h')
      simp [insertKey, h, hba]
    · have hba : ¬ a.1 ≤ b.1 := fun h' => hab (le_antisymm h' h)
      simp [insertKey, h, hba]
  | cons c t ih =>
    by_cases hbc : b.1 ≤ c.1
    · by_cases hac : a.1 ≤ c.1
      · rcases le_total a.1 b.1 with h | h
        · have hba : ¬ b.1 ≤ a.1 := fun h' => hab (le_antisymm h h')
          simp [insertKey, hbc, hac, h, hba]
        · have hba : ¬ a.1 ≤ b.1 := fun h' => hab (le_antisymm h' h)
          simp [insertKey, hbc, hac, h, hba]
      · have hba : ¬ a.1 ≤ b.1 := fun h' => hac (le_trans h' hbc)
        simp [insertKey, hbc, hac, hba]
    · by_cases hac : a.1 ≤ c.1
      · have hba : ¬ b.1 ≤ a.1 := fun h' => hbc (le_trans h' hac)
        simp [insertKey, hbc, hac, hba]
      · simp [insertKey, hbc, hac, ih]

theorem sortByKey_eq_of_perm {l1 l2 : List (String × JsValue)}
    (h : l1.Perm l2) (nd : (l1.map Prod.fst).Nodup) :
    sortByKey l1 = sortByKey l2 := by
  induction h with
  | nil => rfl
  | cons x h ih =>
    simp only [List.map_cons, List.nodup_cons] at nd
    simp only [sortByKey, ih nd.2]
  | swap x y l =>
    simp only [List.map_cons, List.nodup_cons, List.mem_cons] at nd
    have hxy : y.1 ≠ x.1 := fun h' => nd.1 (Or.inl h')
    simp only [sortByKey]
    exact insertKey_comm y x hxy (sortByKey l)
  | trans h1 h2 ih1 ih2 =>
    have nd2 := ((h1.map Prod.fst).nodup_iff).mp nd
    exact (ih1 nd).trans (ih2 nd2)

theorem perm_eq_of_map_fst_eq :
    ∀ {l1 l2 : List (String × JsValue)}, l1.Perm l2 →
      l1.map Prod.fst = l2.map Prod.fst → (l1.map Prod.fst).Nodup → l1 = l2 := by
  intro l1
  induction l1 with
  | nil =>
    intro l2 hp _ _
    exact hp.nil_eq
  | cons a t1 ih =>
    intro l2 hp hk nd
    cases l2 with
    | nil => exact absurd hp.symm (by simp)
    | cons b t2 =>
      simp only [List.map_cons, List.cons.injEq] at hk
      simp only [List.map_cons, List.nodup_cons] at nd
      have hab : a = b := by
        have hmem : a ∈ b :: t2 := hp.mem_iff.mp (List.mem_cons_self a t1)
        rcases List.mem_cons.mp hmem with h | h
        · exact h
        · exfalso
          apply nd.1
          rw [hk.2]
          exact List.mem_map_of_mem Prod.fst h
      subst hab
      have ht : t1.Perm t2 := hp.cons_inv
      rw [ih ht hk.2 nd.2]

theorem sortByKey_inj {l1 l2 : List (String × JsValue)}
    (hk : l1.map Prod.fst = l2.map Prod.fst) (nd : (l1.map Prod.fst).Nodup)
    (h : sortByKey l1 = sortByKey l2) : l1 = l2 :=
  perm_eq_of_map_fst_eq
    ((sortByKey_perm l1).symm.trans (h ▸ sortByKey_perm l2)) hk nd

/-- Pointwise relation between two field lists: equal keys in equal
positions, values related by `R`. -/
inductive FieldsRel (R : JsValue → JsValue → Prop) :
    List (String × JsValue) → List (String × JsValue) → Prop where
  | nil : FieldsRel R [] []
  | cons (k : String) (v w : JsValue) (fs gs : List (String × JsValue))
      (hr : R v w) (ht : FieldsRel R fs gs) :
      FieldsRel R ((k, v) :: fs) ((k, w) :: gs)

theorem FieldsRel.imp {R S : JsValue → JsValue → Prop}
    (h : ∀ v w, R v w → S v w) :
    ∀ {fs gs}, FieldsRel R fs gs → FieldsRel S fs gs := by
  intro fs gs hrel
  induction hrel with
  | nil => exact .nil
  | cons k v w fs gs hr ht ih => exact .cons k v w fs gs (h v w hr) ih

theorem fieldsRel_of_zip {R : JsValue → JsValue → Prop} :
    ∀ {hs gs : List (String × JsValue)}, hs.length = gs.length →
      (∀ p ∈ hs.zip gs, p.1.1 = p.2.1) → (∀ p ∈ hs.zip gs, R p.1.2 p.2.2) →
      FieldsRel R hs gs := by
  intro hs
  induction hs with
  | nil =>
    intro gs hl _ _
    cases gs with
    | nil => exact .nil
    | cons b t => exact absurd hl (by simp)
  | cons a t ih =>
    intro gs hl hk hv
    cases gs with
    | nil => exact absurd hl (by simp)
    | cons b u =>
      obtain ⟨ka, va⟩ := a
      obtain ⟨kb, vb⟩ := b
      have hk1 : ka = kb := hk ((ka, va), (kb, vb)) (by simp)
      have hv1 : R va vb := hv ((ka, va), (kb, vb)) (by simp)
      have ht : FieldsRel R t u := by
        refine ih (by simpa using hl) ?_ ?_
        · intro p hp; exact hk p (by simp [hp])
        · intro p hp; exact hv p (by simp [hp])
      subst hk1
      exact FieldsRel.cons ka va vb t u hv1 ht

theorem fieldsRel_length {R : JsValue → JsValue → Prop} :
    ∀ {fs gs}, FieldsRel R fs gs → fs.length = gs.length := by
  intro fs gs h
  induction h with
  | nil => rfl
  | cons k v w fs gs hr ht ih => simp [ih]

theorem fieldsRel_zip_keys {R : JsValue → JsValue → Prop} :
    ∀ {fs gs}, FieldsRel R fs gs → ∀ p ∈ fs.zip gs, p.1.1 = p.2.1 := by
  intro fs gs h
  induction h with
  | nil => simp
  | cons k v w fs gs hr ht ih =>
    intro p hp
    rcases List.mem_cons.mp (by simpa [List.zip] using hp) with h1 | h2
    · simp [h1]
    · exact ih p h2

theorem fieldsRel_zip_vals {R : JsValue → JsValue → Prop} :
    ∀ {fs gs}, FieldsRel R fs gs → ∀ p ∈ fs.zip gs, R p.1.2 p.2.2 := by
  intro fs gs h
  induction h with
  | nil => simp
  | cons k v w fs gs hr ht ih =>
    intro p hp
    rcases List.mem_cons.mp (by simpa [List.zip] using hp) with h1 | h2
    · rw [h1]; exact hr
    · exact ih p h2

theorem fieldsRel_map_fst {R : JsValue → JsValue → Prop} :
    ∀ {fs gs}, FieldsRel R fs gs →
      fs.map Prod.fst = gs.map Prod.fst := by
  intro fs gs h
  induction h with
  | nil => rfl
  | cons k v w fs gs hr ht ih => simp [ih]

theorem fieldsRel_filter_key {R : JsValue → JsValue → Prop}
    (P : String → Bool) :
    ∀ {fs gs}, FieldsRel R fs gs →
      FieldsRel R (fs.filter (fun kv => P kv.1))
        (gs.filter (fun kv => P kv.1)) := by
  intro fs gs h
  induction h with
  | nil => exact .nil
  | cons k v w fs gs hr ht ih =>
    by_cases hP : P k
    · simpa [List.filter, hP] using FieldsRel.cons k v w _ _ hr ih
    · simpa [List.filter, hP] using ih

theorem canonFields_eq_map (fs : List (String × JsValue)) :
    canonFields fs = fs.map (fun kv => (kv.1, canonVal kv.2)) := by
  induction fs with
  | nil => rfl
  | cons a t ih => obtain ⟨k, v⟩ := a; simp [canonFields, ih]

theorem map_fst_canonFields (fs : List (String × JsValue)) :
    (canonFields fs).map Prod.fst = fs.map Prod.fst := by
  rw [canonFields_eq_map, List.map_map]; rfl

theorem canonList_congr :
    ∀ {xs ys : List JsValue}, xs.length = ys.length →
      (∀ p ∈ xs.zip ys, canonVal p.1 = canonVal p.2) →
      canonList xs = canonList ys := by
  intro xs
  induction xs with
  | nil =>
    intro ys hl _
    cases ys with
    | nil => rfl
    | cons b t => exact absurd hl (by simp)
  | cons a t ih =>
    intro ys hl hv
    cases ys with
    | nil => exact absurd hl (by simp)
    | cons b u =>
      have h1 : canonVal a = canonVal b := hv (a, b) (by simp)
      have h2 : canonList t = canonList u := by
        refine ih (by simpa using hl) ?_
        intro p hp; exact hv p (by simp [hp])
      simp [canonList, h1, h2]

theorem fieldsRel_canonFields {fs gs : List (String × JsValue)}
    (h : FieldsRel (fun v w => canonVal v = canonVal w) fs gs) :
    canonFields fs = canonFields gs := by
  induction h with
  | nil => rfl
  | cons k v w fs gs hr ht ih => simp [canonFields, hr, ih]

/-- Core canonicalization determinism: field-order permutations have equal
canonical forms. -/
theorem canonVal_eq_of_keyPerm :
    ∀ {v w : JsValue}, KeyPerm v w → canonVal v = canonVal w := by
  intro v w h
  induction h with
  | null => rfl
  | bool b => rfl
  | num n => rfl
  | str s => rfl
  | arr xs ys hl hv ih =>
    simp only [canonVal]
    rw [canonList_congr hl ih]
  | obj fs hs gs nd hperm hl hk hv ih =>
    simp only [canonVal]
    have h1 : (canonFields fs).Perm (canonFields hs) := by
      rw [canonFields_eq_map, canonFields_eq_map]
      exact hperm.map _
    have nd1 : ((canonFields fs).map Prod.fst).Nodup := by
      rw [map_fst_canonFields]; exact nd
    have h2 : canonFields hs = canonFields gs :=
      fieldsRel_canonFields
        ((fieldsRel_of_zip hl hk ih).imp (fun v w hr => hr))
    rw [sortByKey_eq_of_perm h1 nd1, h2]

theorem nodup_keys_filter {fs : List (String × JsValue)}
    (P : (String × JsValue) → Bool) (nd : (fs.map Prod.fst).Nodup) :
    ((fs.filter P).map Prod.fst).Nodup :=
  ((List.filter_sublist (p := P) fs).map Prod.fst).nodup nd

/-- The modelled object-hash digest is invariant under field-order
permutation, for every `excludeKeys` option. -/
theorem objectHash_eq_of_keyPerm (opts : HashOpts) :
    ∀ {v w : JsValue}, KeyPerm v w → objectHash opts v = objectHash opts w := by
  intro v w h
  cases h with
  | null => rfl
  | bool b => rfl
  | num n => rfl
  | str s => rfl
  | arr xs ys hl hv =>
    simpa [objectHash] using canonVal_eq_of_keyPerm (KeyPerm.arr xs ys hl hv)
  | obj fs hs gs nd hperm hl hk hv =>
    simp only [objectHash]
    have hrel : FieldsRel KeyPerm hs gs := fieldsRel_of_zip hl hk hv
    have hrelF := fieldsRel_filter_key (fun k => !opts.excludeKeys k) hrel
    have h1 : (canonFields (fs.filter (fun kv => !opts.excludeKeys kv.1))).Perm
        (canonFields (hs.filter (fun kv => !opts.excludeKeys kv.1))) := by
      rw [canonFields_eq_map, canonFields_eq_map]
      exact (hperm.filter _).map _
    have nd1 : ((canonFields
        (fs.filter (fun kv => !opts.excludeKeys kv.1))).map Prod.fst).Nodup := by
      rw [map_fst_canonFields]
      exact nodup_keys_filter _ nd
    have h2 : canonFields (hs.filter (fun kv => !opts.excludeKeys kv.1)) =
        canonFields (gs.filter (fun kv => !opts.excludeKeys kv.1)) :=
      fieldsRel_canonFields
        (hrelF.imp (fun v w hr => canonVal_eq_of_keyPerm hr))
    rw [sortByKey_eq_of_perm h1 nd1, h2]

/-- Lift a relation on values to possibly-absent values. -/
def OptRel (R : JsValue → JsValue → Prop) :
    Option JsValue → Option JsValue → Prop
  | none, none => True
  | some v, some w => R v w
  | _, _ => False

theorem alookup_perm {l1 l2 : List (String × JsValue)} (k : String)
    (h : l1.Perm l2) (nd : (l1.map Prod.fst).Nodup) :
    alookup k l1 = alookup k l2 := by
  induction h with
  | nil => rfl
  | cons x h ih =>
    simp only [List.map_cons, List.nodup_cons] at nd
    simp only [alookup, ih nd.2]
  | swap x y l =>
    simp only [List.map_cons, List.nodup_cons, List.mem_cons] at nd
    have hxy : y.1 ≠ x.1 := fun h' => nd.1 (Or.inl h')
    by_cases hy : y.1 = k
    · have hx : ¬ x.1 = k := fun h' => hxy (hy.trans h'.symm)
      simp [alookup, hy, hx]
    · by_cases hx : x.1 = k
      · simp [alookup, hy, hx]
      · simp [alookup, hy, hx]
  | trans h1 h2 ih1 ih2 =>
    have nd2 := ((h1.map Prod.fst).nodup_iff).mp nd
    exact (ih1 nd).trans (ih2 nd2)

theorem fieldsRel_alookup {R : JsValue → JsValue → Prop} (k : String) :
    ∀ {fs gs}, FieldsRel R fs gs →
      OptRel R (alookup k fs) (alookup k gs) := by
  intro fs gs h
  induction h with
  | nil => trivial
  | cons k' v w fs gs hr ht ih =>
    by_cases hk : k' = k
    · simpa [alookup, hk, OptRel] using hr
    · simpa [alookup, hk] using ih

theorem keyPerm_alookup {fs gs : List (String × JsValue)} (k : String)
    (h : KeyPerm (.obj fs) (.obj gs)) :
    OptRel KeyPerm (alookup k fs) (alookup k gs) := by
  cases h with
  | obj fs hs gs nd hperm hl hk hv =>
    rw [alookup_perm k hperm nd]
    exact fieldsRel_alookup k (fieldsRel_of_zip hl hk hv)

theorem keyPerm_empty_obj : KeyPerm (.obj []) (.obj []) :=
  .obj [] [] [] (by simp) (List.Perm.refl _) rfl (by simp) (by simp)

theorem keyPerm_obj_of_fieldsRel {l1 l2 : List (String × JsValue)}
    (nd : (l1.map Prod.fst).Nodup) (h : FieldsRel KeyPerm l1 l2) :
    KeyPerm (.obj l1) (.obj l2) :=
  .obj l1 l1 l2 nd (List.Perm.refl _) (fieldsRel_length h)
    (fieldsRel_zip_keys h) (fieldsRel_zip_vals h)

theorem keyPerm_removeKeys (ps : List String) :
    ∀ {v w : JsValue}, KeyPerm v w →
      KeyPerm (removeKeys ps v) (removeKeys ps w) := by
  intro v w h
  cases h with
  | null => exact .null
  | bool b => exact .bool b
  | num n => exact .num n
  | str s => exact .str s
  | arr xs ys hl hv => exact .arr xs ys hl hv
  | obj fs hs gs nd hperm hl hk hv =>
    simp only [removeKeys]
    have hrel : FieldsRel KeyPerm hs gs := fieldsRel_of_zip hl hk hv
    have hrelF :=
      fieldsRel_filter_key (fun k => !(k ∈ ps : Bool)) hrel
    exact .obj _ _ _ (nodup_keys_filter _ nd) (hperm.filter _)
      (fieldsRel_length hrelF) (fieldsRel_zip_keys hrelF)
      (fieldsRel_zip_vals hrelF)

theorem map_fst_omitF (ps : List String) (l : List (String × JsValue)) :
    (l.map (fun kv =>
      if kv.1 = "data" then (kv.1, removeKeys ps kv.2) else kv)).map Prod.fst =
      l.map Prod.fst := by
  induction l with
  | nil => rfl
  | cons a t ih =>
    by_cases h : a.1 = "data" <;> simp [h, ih]

theorem fieldsRel_map_omit (ps : List String) :
    ∀ {fs gs}, FieldsRel KeyPerm fs gs →
      FieldsRel KeyPerm
        (fs.map (fun kv =>
          if kv.1 = "data" then (kv.1, removeKeys ps kv.2) else kv))
        (gs.map (fun kv =>
          if kv.1 = "data" then (kv.1, removeKeys ps kv.2) else kv)) := by
  intro fs gs h
  induction h with
  | nil => exact .nil
  | cons k v w fs gs hr ht ih =>
    by_cases hk : k = "data"
    · simpa [hk] using FieldsRel.cons k (removeKeys ps v) (removeKeys ps w) _ _
        (keyPerm_removeKeys ps hr) ih
    · simpa [hk] using FieldsRel.cons k v w _ _ hr ih

theorem keyPerm_omitDataPaths (ps : List String)
    {l1 l2 : List (String × JsValue)} (h : KeyPerm (.obj l1) (.obj l2)) :
    KeyPerm (omitDataPaths ps (.obj l1)) (omitDataPaths ps (.obj l2)) := by
  cases h with
  | obj fs hs gs nd hperm hl hk hv =>
    simp only [omitDataPaths]
    have hrel : FieldsRel KeyPerm hs l2 := fieldsRel_of_zip hl hk hv
    have hrelM := fieldsRel_map_omit ps hrel
    refine .obj _ _ _ ?_ (hperm.map _) (fieldsRel_length hrelM)
      (fieldsRel_zip_keys hrelM) (fieldsRel_zip_vals hrelM)
    rw [map_fst_omitF]
    exact nd

theorem pick_fieldsRel (props : List String)
    {fs gs : List (String × JsValue)} (h : KeyPerm (.obj fs) (.obj gs)) :
    FieldsRel KeyPerm
      (props.filterMap (fun p => (alookup p fs).map (fun v => (p, v))))
      (props.filterMap (fun p => (alookup p gs).map (fun v => (p, v)))) := by
  induction props with
  | nil => exact .nil
  | cons p ps ih =>
    have hopt := keyPerm_alookup p h
    cases hfs : alookup p fs with
    | none =>
      cases hgs : alookup p gs with
      | none => simpa [List.filterMap, hfs, hgs] using ih
      | some w => rw [hfs, hgs] at hopt; exact absurd hopt (by simp [OptRel])
    | some v =>
      cases hgs : alookup p gs with
      | none => rw [hfs, hgs] at hopt; exact absurd hopt (by simp [OptRel])
      | some w =>
        rw [hfs, hgs] at hopt
        simpa [List.filterMap, hfs, hgs] using
          FieldsRel.cons p v w _ _ hopt ih

theorem pick_keys (props : List String) (fs : List (String × JsValue)) :
    (props.filterMap (fun p => (alookup p fs).map (fun v => (p, v)))).map
      Prod.fst = props.filter (fun p => (alookup p fs).isSome) := by
  induction props with
  | nil => rfl
  | cons p ps ih =>
    cases hfs : alookup p fs with
    | none => simp [List.filterMap, List.filter, hfs, ih]
    | some v => simp [List.filterMap, List.filter, hfs, ih]

theorem getKeyData_keyPerm (envIncluded : List String) {d1 d2 : JsValue}
    (h : KeyPerm d1 d2)
    (ndp : (includableAdapterRequestProperties envIncluded).Nodup) :
    KeyPerm (getKeyData envIncluded (some d1))
      (getKeyData envIncluded (some d2)) := by
  cases h with
  | null => exact keyPerm_empty_obj
  | bool b => exact keyPerm_empty_obj
  | num n => exact keyPerm_empty_obj
  | str s => exact keyPerm_empty_obj
  | arr xs ys hl hv => exact keyPerm_empty_obj
  | obj fs hs gs nd hperm hl hk hv =>
    have hobj : KeyPerm (.obj fs) (.obj gs) := .obj fs hs gs nd hperm hl hk hv
    have hrel := pick_fieldsRel
      (includableAdapterRequestProperties envIncluded) hobj
    have ndpick : (((includableAdapterRequestProperties envIncluded).filterMap
        (fun p => (alookup p fs).map (fun v => (p, v)))).map Prod.fst).Nodup := by
      rw [pick_keys]
      exact ndp.filter _
    exact keyPerm_omitDataPaths _ (keyPerm_obj_of_fieldsRel ndpick hrel)

theorem keyPerm_truthy : ∀ {v w : JsValue}, KeyPerm v w →
    jsTruthy v = jsTruthy w := by
  intro v w h
  cases h <;> rfl

theorem jsTruthyOpt_some (v : JsValue) : jsTruthyOpt (some v) = jsTruthy v :=
  rfl

theorem hash_eq_of_keyPerm (envIgnored envIncluded : List String)
    (opts : HashOpts) (mode : HashMode) {d1 d2 : JsValue} (h : KeyPerm d1 d2)
    (ndp : (includableAdapterRequestProperties envIncluded).Nodup) :
    hash envIgnored envIncluded (some d1) opts mode =
      hash envIgnored envIncluded (some d2) opts mode := by
  simp only [hash, jsTruthyOpt_some, Option.getD_some]
  rw [keyPerm_truthy h]
  by_cases hc : mode = HashMode.includeMode ∨ (!jsTruthy d2 : Bool)
  · rw [if_pos hc, if_pos hc]
    exact objectHash_eq_of_keyPerm opts (getKeyData_keyPerm envIncluded h ndp)
  · rw [if_neg hc, if_neg hc]
    exact objectHash_eq_of_keyPerm _ h

/-- C2: canonicalization is deterministic under object-field permutation:
payloads that permute each other's object-field insertion order (at the top
level and in nested objects, with the duplicate-free keys of JS objects)
hash identically, for every `excludeKeys` option, every mode and every
(duplicate-free) configured include list; and a concrete pair of payloads
differing only in the order of an array inside an included field hashes
differently (array order is significant). -/
theorem hash_deterministic_under_field_permutation :
    (∀ (envIgnored envIncluded : List String) (d1 d2 : JsValue)
      (opts : HashOpts) (mode : HashMode), KeyPerm d1 d2 →
      (includableAdapterRequestProperties envIncluded).Nodup →
      hash envIgnored envIncluded (some d1) opts mode =
        hash envIgnored envIncluded (some d2) opts mode) ∧
    hash [] [] (some (.obj [("data", .obj [("legs", .arr [.num 1, .num 2])])]))
        (getHashOpts []) .includeMode ≠
      hash [] [] (some (.obj [("data", .obj [("legs", .arr [.num 2, .num 1])])]))
        (getHashOpts []) .includeMode := by
  constructor
  · intro envIgnored envIncluded d1 d2 opts mode h ndp
    exact hash_eq_of_keyPerm envIgnored envIncluded opts mode h ndp
  · intro heq
    rw [show hash [] []
        (some (.obj [("data", .obj [("legs", .arr [.num 1, .num 2])])]))
        (getHashOpts []) .includeMode =
        .obj [("data", .obj [("legs", .arr [.num 1, .num 2])])] from rfl,
      show hash [] []
        (some (.obj [("data", .obj [("legs", .arr [.num 2, .num 1])])]))
        (getHashOpts []) .includeMode =
        .obj [("data", .obj [("legs", .arr [.num 2, .num 1])])] from rfl] at heq
    simp at heq

theorem hash_deterministic_under_field_permutation_witness :
    KeyPerm (.obj [("b", .null), ("a", .bool true)])
      (.obj [("a", .bool true), ("b", .null)]) ∧
    (includableAdapterRequestProperties []).Nodup ∧
    hash [] [] (some (.obj [("b", .null), ("a", .bool true)]))
        (getHashOpts []) .excludeMode =
      hash [] [] (some (.obj [("a", .bool true), ("b", .null)]))
        (getHashOpts []) .excludeMode := by
  have hkp : KeyPerm (.obj [("b", JsValue.null), ("a", .bool true)])
      (.obj [("a", JsValue.bool true), ("b", .null)]) := by
    refine KeyPerm.obj _ [("a", .bool true), ("b", .null)] _ (by decide)
      (List.Perm.swap _ _ _) rfl ?_ ?_
    · intro p hp
      rcases List.mem_cons.mp hp with h1 | h2
      · rw [h1]
      · rcases List.mem_cons.mp h2 with h3 | h4
        · rw [h3]
        · simp at h4
    · intro p hp
      rcases List.mem_cons.mp hp with h1 | h2
      · rw [h1]; exact .bool true
      · rcases List.mem_cons.mp h2 with h3 | h4
        · rw [h3]; exact .null
        · simp at h4
  refine ⟨hkp, by decide, ?_⟩
  exact (hash_deterministic_under_field_permutation.1) [] []
    _ _ (getHashOpts []) .excludeMode hkp (by decide)

/-- C7: an empty, null or undefined payload digests to the fixed canonical
empty-object key in both modes (for the same hash options the same result in
include and exclude mode), and hashing is total on these inputs (no
error). -/
theorem hash_empty_payload (envIgnored envIncluded : List String)
    (opts : HashOpts) (mode : HashMode) :
    hash envIgnored envIncluded none opts mode = .obj [] ∧
    hash envIgnored envIncluded (some .null) opts mode = .obj [] ∧
    hash envIgnored envIncluded (some (.obj [])) opts mode = .obj [] := by
  have hpick : ∀ props : List String,
      props.filterMap (fun p =>
        (alookup p ([] : List (String × JsValue))).map (fun v => (p, v))) =
      [] := by
    intro props
    refine List.filterMap_eq_nil_iff.mpr ?_
    intro a _
    rfl
  refine ⟨?_, ?_, ?_⟩
  · cases mode <;> rfl
  · cases mode <;> rfl
  · cases mode with
    | includeMode =>
      simp only [hash, jsTruthyOpt_some, getKeyData, jsPick, hpick]
      rfl
    | excludeMode =>
      simp only [hash, jsTruthyOpt_some, Option.getD_some]
      rfl

/-- Replace the value of every binding of key `f` (a JS property write
changes the single binding of `f`; on JS objects the field lists are
duplicate-free, so this is exactly mutation of one field). -/
def updateField (f : String) (w : JsValue) (fs : List (String × JsValue)) :
    List (String × JsValue) :=
  fs.map (fun kv => if kv.1 = f then (kv.1, w) else kv)

theorem map_fst_updateField (f : String) (w : JsValue)
    (fs : List (String × JsValue)) :
    (updateField f w fs).map Prod.fst = fs.map Prod.fst := by
  induction fs with
  | nil => rfl
  | cons a t ih =>
    obtain ⟨k, v⟩ := a
    by_cases h : k = f <;> simp [updateField, h] <;>
      simpa [updateField] using ih

theorem alookup_updateField_ne {p f : String} (hp : p ≠ f) (w : JsValue)
    (fs : List (String × JsValue)) :
    alookup p (updateField f w fs) = alookup p fs := by
  induction fs with
  | nil => rfl
  | cons a t ih =>
    obtain ⟨k, v⟩ := a
    simp only [updateField, List.map_cons]
    by_cases h : k = f
    · have h2 : ¬ k = p := fun h' => hp (h'.symm.trans h)
      rw [if_pos h]
      simp only [alookup]
      rw [if_neg h2, if_neg h2]
      simpa [updateField] using ih
    · rw [if_neg h]
      simp only [alookup]
      by_cases h2 : k = p
      · rw [if_pos h2, if_pos h2]
      · rw [if_neg h2, if_neg h2]
        simpa [updateField] using ih

theorem alookup_updateField_self (f : String) (w : JsValue)
    (fs : List (String × JsValue)) :
    alookup f (updateField f w fs) = (alookup f fs).map (fun _ => w) := by
  induction fs with
  | nil => rfl
  | cons a t ih =>
    obtain ⟨k, v⟩ := a
    simp only [updateField, List.map_cons]
    by_cases h : k = f
    · rw [if_pos h]
      simp only [alookup]
      rw [if_pos h, if_pos h]
      rfl
    · rw [if_neg h]
      simp only [alookup]
      rw [if_neg h, if_neg h]
      simpa [updateField] using ih

theorem filter_updateField_dropped {P : String → Bool} {f : String}
    (hf : P f = false) (w : JsValue) (fs : List (String × JsValue)) :
    (updateField f w fs).filter (fun kv => P kv.1) =
      fs.filter (fun kv => P kv.1) := by
  induction fs with
  | nil => rfl
  | cons a t ih =>
    obtain ⟨k, v⟩ := a
    simp only [updateField, List.map_cons] at ih ⊢
    by_cases h : k = f
    · have hPk : P k = false := by rw [h]; exact hf
      rw [if_pos h]
      simp only [List.filter_cons, hPk]
      simpa using ih
    · rw [if_neg h]
      cases h2 : P k with
      | false =>
        simp only [List.filter_cons, h2]
        simpa using ih
      | true =>
        simp only [List.filter_cons, h2]
        simpa using ih

theorem filter_updateField_comm (P : String → Bool) (f : String) (w : JsValue)
    (fs : List (String × JsValue)) :
    (updateField f w fs).filter (fun kv => P kv.1) =
      updateField f w (fs.filter (fun kv => P kv.1)) := by
  induction fs with
  | nil => rfl
  | cons a t ih =>
    obtain ⟨k, v⟩ := a
    simp only [updateField, List.map_cons] at ih ⊢
    by_cases h : k = f
    · rw [if_pos h]
      cases h2 : P k with
      | false =>
        simp only [List.filter_cons, h2]
        simpa using ih
      | true =>
        simp only [List.filter_cons, h2, if_true, List.map_cons]
        rw [if_pos h]
        simpa using ih
    · rw [if_neg h]
      cases h2 : P k with
      | false =>
        simp only [List.filter_cons, h2]
        simpa using ih
      | true =>
        simp only [List.filter_cons, h2, if_true, List.map_cons]
        rw [if_neg h]
        simpa using ih

theorem alookup_filter_true {P : String → Bool} {f : String} (hf : P f = true)
    (fs : List (String × JsValue)) :
    alookup f (fs.filter (fun kv => P kv.1)) = alookup f fs := by
  induction fs with
  | nil => rfl
  | cons a t ih =>
    obtain ⟨k, v⟩ := a
    by_cases h : k = f
    · have hPk : P k = true := by rw [h]; exact hf
      simp only [List.filter_cons, hPk, if_true, alookup]
      rw [if_pos h, if_pos h]
    · cases h2 : P k with
      | false =>
        simp only [List.filter_cons, h2]
        simp only [alookup]
        rw [if_neg h]
        exact ih
      | true =>
        simp only [List.filter_cons, h2, if_true, alookup]
        rw [if_neg h, if_neg h]
        exact ih

theorem alookup_canonFields (f : String) (fs : List (String × JsValue)) :
    alookup f (canonFields fs) = (alookup f fs).map canonVal := by
  induction fs with
  | nil => rfl
  | cons a t ih =>
    obtain ⟨k, v⟩ := a
    simp only [canonFields, alookup]
    by_cases h : k = f
    · rw [if_pos h, if_pos h]
      rfl
    · rw [if_neg h, if_neg h]
      exact ih

theorem alookup_map_omitF (ps : List String) (k : String)
    (l : List (String × JsValue)) :
    alookup k (l.map (fun kv =>
        if kv.1 = "data" then (kv.1, removeKeys ps kv.2) else kv)) =
      (alookup k l).map
        (fun v => if k = "data" then removeKeys ps v else v) := by
  induction l with
  | nil => rfl
  | cons a t ih =>
    obtain ⟨q, v⟩ := a
    simp only [List.map_cons]
    by_cases h : q = "data"
    · rw [if_pos h]
      simp only [alookup]
      by_cases h2 : q = k
      · rw [if_pos h2, if_pos h2]
        have hk : k = "data" := h2 ▸ h
        simp [hk]
      · rw [if_neg h2, if_neg h2]
        exact ih
    · rw [if_neg h]
      simp only [alookup]
      by_cases h2 : q = k
      · rw [if_pos h2, if_pos h2]
        have hk : ¬ k = "data" := fun h' => h (h2.trans h')
        simp [hk]
      · rw [if_neg h2, if_neg h2]
        exact ih

theorem map_fst_filter_key (P : String → Bool)
    (l : List (String × JsValue)) :
    (l.filter (fun kv => P kv.1)).map Prod.fst =
      (l.map Prod.fst).filter P := by
  induction l with
  | nil => rfl
  | cons a t ih =>
    by_cases h : P a.1 <;> simp [List.filter, h, ih]

theorem jsTruthy_obj (fs : List (String × JsValue)) :
    jsTruthy (.obj fs) = true := rfl

theorem hash_obj_includeMode (envIgnored envIncluded : List String)
    (fs : List (String × JsValue)) (opts : HashOpts) :
    hash envIgnored envIncluded (some (.obj fs)) opts .includeMode =
      objectHash opts (getKeyData envIncluded (some (.obj fs))) := by
  simp [hash]

theorem hash_obj_excludeMode (envIgnored envIncluded : List String)
    (fs : List (String × JsValue)) (opts : HashOpts) :
    hash envIgnored envIncluded (some (.obj fs)) opts .excludeMode =
      objectHash (getHashOpts envIgnored) (.obj fs) := by
  simp [hash, jsTruthyOpt_some, jsTruthy_obj]

theorem getKeyData_volatile_top (envIncluded : List String)
    (fs : List (String × JsValue)) (f : String) (w : JsValue)
    (hincl : f ∉ includableAdapterRequestProperties envIncluded) :
    getKeyData envIncluded (some (.obj (updateField f w fs))) =
      getKeyData envIncluded (some (.obj fs))  := by
  simp only [getKeyData, jsPick]
  congr 1
  congr 1
  refine List.filterMap_congr ?_
  intro p hp
  have hpf : p ≠ f := fun h => hincl (h ▸ hp)
  rw [alookup_updateField_ne hpf]

theorem hash_volatile_top (envIgnored envIncluded : List String)
    (fs : List (String × JsValue)) (f : String) (w : JsValue)
    (opts : HashOpts) (mode : HashMode)
    (hexcl : excludableAdapterRequestProperties envIgnored f = true)
    (hincl : f ∉ includableAdapterRequestProperties envIncluded) :
    hash envIgnored envIncluded (some (.obj (updateField f w fs))) opts mode =
      hash envIgnored envIncluded (some (.obj fs)) opts mode := by
  cases mode with
  | includeMode =>
    rw [hash_obj_includeMode, hash_obj_includeMode,
      getKeyData_volatile_top envIncluded fs f w hincl]
  | excludeMode =>
    rw [hash_obj_excludeMode, hash_obj_excludeMode]
    simp only [objectHash, getHashOpts]
    have hP : (fun k => !excludableAdapterRequestProperties envIgnored k) f =
        false := by
      show (!excludableAdapterRequestProperties envIgnored f) = false
      rw [hexcl]
      rfl
    rw [filter_updateField_dropped (P := fun k =>
      !excludableAdapterRequestProperties envIgnored k) hP]

theorem getKeyData_data_sub (envIncluded : List String)
    (fs1 fs2 ds : List (String × JsValue)) (f : String) (w : JsValue)
    (hothers : ∀ p, p ≠ "data" → alookup p fs2 = alookup p fs1)
    (h1 : alookup "data" fs1 = some (.obj ds))
    (h2 : alookup "data" fs2 = some (.obj (updateField f w ds)))
    (hf : f ∈ excludableInternalAdapterRequestProperties) :
    getKeyData envIncluded (some (.obj fs2)) =
      getKeyData envIncluded (some (.obj fs1)) := by
  simp only [getKeyData, jsPick, omitDataPaths]
  congr 1
  have hQ : (fun k =>
      !(k ∈ excludableInternalAdapterRequestProperties : Bool)) f = false := by
    show (!(decide (f ∈ excludableInternalAdapterRequestProperties))) = false
    simp [hf]
  have hrm : removeKeys excludableInternalAdapterRequestProperties
      (.obj (updateField f w ds)) =
      removeKeys excludableInternalAdapterRequestProperties (.obj ds) := by
    show JsValue.obj ((updateField f w ds).filter fun kv =>
        !(kv.1 ∈ excludableInternalAdapterRequestProperties : Bool)) =
      JsValue.obj (ds.filter fun kv =>
        !(kv.1 ∈ excludableInternalAdapterRequestProperties : Bool))
    rw [filter_updateField_dropped (P := fun k =>
      !(k ∈ excludableInternalAdapterRequestProperties : Bool)) hQ]
  induction (includableAdapterRequestProperties envIncluded) with
  | nil => rfl
  | cons p ps ih =>
    by_cases hp : p = "data"
    · subst hp
      simp only [List.filterMap_cons, h1, h2, Option.map_some', List.map_cons]
      rw [ih]
      simp [hrm]
    · simp only [List.filterMap_cons, hothers p hp]
      cases hl : alookup p fs1 with
      | none => simp only [hl, Option.map_none']; exact ih
      | some u =>
        simp only [hl, Option.map_some', List.map_cons]
        rw [ih]

theorem hash_included_field_sensitive (envIgnored envIncluded : List String)
    (fs1 fs2 ds : List (String × JsValue)) (f : String) (v w : JsValue)
    (opts : HashOpts)
    (ndp : (includableAdapterRequestProperties envIncluded).Nodup)
    (hothers : ∀ p, p ≠ "data" → alookup p fs2 = alookup p fs1)
    (h1 : alookup "data" fs1 = some (.obj ds))
    (h2 : alookup "data" fs2 = some (.obj (updateField f w ds)))
    (hfip : f ∉ excludableInternalAdapterRequestProperties)
    (nds : (ds.map Prod.fst).Nodup)
    (hv : alookup f ds = some v)
    (hne : canonVal w ≠ canonVal v)
    (hdx : opts.excludeKeys "data" = false) :
    hash envIgnored envIncluded (some (.obj fs2)) opts .includeMode ≠
      hash envIgnored envIncluded (some (.obj fs1)) opts .includeMode := by
  intro heq
  have hPd : (fun k => !opts.excludeKeys k) "data" = true := by
    show (!opts.excludeKeys "data") = true
    rw [hdx]
    rfl
  have hQf : (fun k =>
      !(k ∈ excludableInternalAdapterRequestProperties : Bool)) f = true := by
    show (!(decide (f ∈ excludableInternalAdapterRequestProperties))) = true
    simp [hfip]
  rw [hash_obj_includeMode, hash_obj_includeMode] at heq
  simp only [getKeyData, jsPick, omitDataPaths, objectHash,
    JsValue.obj.injEq] at heq
  have hksA : ((includableAdapterRequestProperties envIncluded).filterMap
        (fun p => (alookup p fs2).map (fun v => (p, v)))).map Prod.fst =
      ((includableAdapterRequestProperties envIncluded).filterMap
        (fun p => (alookup p fs1).map (fun v => (p, v)))).map Prod.fst := by
    rw [pick_keys, pick_keys]
    refine List.filter_congr ?_
    intro p _
    by_cases hpd : p = "data"
    · subst hpd
      rw [h1, h2]
      rfl
    · rw [hothers p hpd]
  obtain hX := sortByKey_inj (by
      rw [map_fst_canonFields, map_fst_canonFields,
        map_fst_filter_key (fun k => !opts.excludeKeys k),
        map_fst_filter_key (fun k => !opts.excludeKeys k),
        map_fst_omitF, map_fst_omitF, hksA])
    (by
      rw [map_fst_canonFields,
        map_fst_filter_key (fun k => !opts.excludeKeys k), map_fst_omitF,
        pick_keys]
      exact (ndp.filter _).filter _)
    heq
  have hlook := congrArg (alookup "data") hX
  have hp2 : alookup "data"
      ((includableAdapterRequestProperties envIncluded).filterMap
        (fun p => (alookup p fs2).map (fun v => (p, v)))) =
      some (.obj (updateField f w ds)) := by
    simp [includableAdapterRequestProperties, List.filterMap_cons, h2, alookup]
  have hp1 : alookup "data"
      ((includableAdapterRequestProperties envIncluded).filterMap
        (fun p => (alookup p fs1).map (fun v => (p, v)))) =
      some (.obj ds) := by
    simp [includableAdapterRequestProperties, List.filterMap_cons, h1, alookup]
  rw [alookup_canonFields, alookup_canonFields,
    alookup_filter_true (P := fun k => !opts.excludeKeys k) hPd,
    alookup_filter_true (P := fun k => !opts.excludeKeys k) hPd,
    alookup_map_omitF, alookup_map_omitF, hp1, hp2] at hlook
  simp only [Option.map_some', if_pos rfl, Option.some.injEq] at hlook
  have hcv : canonVal
      (.obj (updateField f w (ds.filter (fun kv =>
        !(kv.1 ∈ excludableInternalAdapterRequestProperties : Bool))))) =
      canonVal (.obj (ds.filter (fun kv =>
        !(kv.1 ∈ excludableInternalAdapterRequestProperties : Bool)))) := by
    have := hlook
    simp only [removeKeys] at this
    rwa [filter_updateField_comm (fun k =>
      !(k ∈ excludableInternalAdapterRequestProperties : Bool))] at this
  simp only [canonVal, JsValue.obj.injEq] at hcv
  have hkeys2 : (canonFields (updateField f w (ds.filter (fun kv =>
      !(kv.1 ∈ excludableInternalAdapterRequestProperties : Bool))))).map
        Prod.fst =
      (canonFields (ds.filter (fun kv =>
      !(kv.1 ∈ excludableInternalAdapterRequestProperties : Bool)))).map
        Prod.fst := by
    rw [map_fst_canonFields, map_fst_canonFields, map_fst_updateField]
  have ndin : ((canonFields (updateField f w (ds.filter (fun kv =>
      !(kv.1 ∈ excludableInternalAdapterRequestProperties : Bool))))).map
        Prod.fst).Nodup := by
    rw [map_fst_canonFields, map_fst_updateField,
      map_fst_filter_key (fun k =>
        !(k ∈ excludableInternalAdapterRequestProperties : Bool))]
    exact nds.filter _
  have hfieldsEq := sortByKey_inj hkeys2 ndin hcv
  have hlf := congrArg (alookup f) hfieldsEq
  rw [alookup_canonFields, alookup_canonFields, alookup_updateField_self,
    alookup_filter_true (P := fun k =>
      !(k ∈ excludableInternalAdapterRequestProperties : Bool)) hQf,
    hv] at hlf
  simp only [Option.map_some', Option.some.injEq] at hlf
  exact hne hlf

/-- C3: volatility blindness.  (1) Changing only a designated volatile
top-level field — one of the built-in `id`, `maxAge`, `meta`, `debug`,
`rateLimitMaxAge`, `metricsMeta` or a name added via
`CACHE_KEY_IGNORED_PROPS`, provided the name is not also force-included via
`CACHE_KEY_INCLUDED_PROPS` — leaves the hash unchanged in both modes.
(2) In include mode, changing only one of the `data` sub-paths `resultPath`,
`overrides`, `tokenOverrides`, `includes` leaves the hash unchanged.
(3) In include mode, changing an included field (a field under `data` that is
not in the internal deny-list) to a canonically different value changes the
hash (for payloads with the duplicate-free keys of JS objects, and options
that do not exclude `data` itself). -/
theorem hash_volatility_blindness :
    (∀ (envIgnored envIncluded : List String) (fs : List (String × JsValue))
      (f : String) (w : JsValue) (opts : HashOpts) (mode : HashMode),
      excludableAdapterRequestProperties envIgnored f = true →
      f ∉ includableAdapterRequestProperties envIncluded →
      hash envIgnored envIncluded (some (.obj (updateField f w fs)))
          opts mode =
        hash envIgnored envIncluded (some (.obj fs)) opts mode) ∧
    (∀ (envIgnored envIncluded : List String)
      (fs1 fs2 ds : List (String × JsValue)) (f : String) (w : JsValue)
      (opts : HashOpts),
      (∀ p, p ≠ "data" → alookup p fs2 = alookup p fs1) →
      alookup "data" fs1 = some (.obj ds) →
      alookup "data" fs2 = some (.obj (updateField f w ds)) →
      f ∈ excludableInternalAdapterRequestProperties →
      hash envIgnored envIncluded (some (.obj fs2)) opts .includeMode =
        hash envIgnored envIncluded (some (.obj fs1)) opts .includeMode) ∧
    (∀ (envIgnored envIncluded : List String)
      (fs1 fs2 ds : List (String × JsValue)) (f : String) (v w : JsValue)
      (opts : HashOpts),
      (includableAdapterRequestProperties envIncluded).Nodup →
      (∀ p, p ≠ "data" → alookup p fs2 = alookup p fs1) →
      alookup "data" fs1 = some (.obj ds) →
      alookup "data" fs2 = some (.obj (updateField f w ds)) →
      f ∉ excludableInternalAdapterRequestProperties →
      (ds.map Prod.fst).Nodup →
      alookup f ds = some v →
      canonVal w ≠ canonVal v →
      opts.excludeKeys "data" = false →
      hash envIgnored envIncluded (some (.obj fs2)) opts .includeMode ≠
        hash envIgnored envIncluded (some (.obj fs1)) opts .includeMode) := by
  refine ⟨?_, ?_, ?_⟩
  · intro envIgnored envIncluded fs f w opts mode hexcl hincl
    exact hash_volatile_top envIgnored envIncluded fs f w opts mode hexcl hincl
  · intro envIgnored envIncluded fs1 fs2 ds f w opts hothers h1 h2 hf
    rw [hash_obj_includeMode, hash_obj_includeMode,
      getKeyData_data_sub envIncluded fs1 fs2 ds f w hothers h1 h2 hf]
  · intro envIgnored envIncluded fs1 fs2 ds f v w opts ndp hothers h1 h2 hfip
      nds hv hne hdx
    exact hash_included_field_sensitive envIgnored envIncluded fs1 fs2 ds f v w
      opts ndp hothers h1 h2 hfip nds hv hne hdx

theorem hash_volatility_blindness_witness :
    excludableAdapterRequestProperties [] "id" = true ∧
    "id" ∉ includableAdapterRequestProperties [] ∧
    hash [] [] (some (.obj (updateField "id" .null [("a", .num 1)])))
        (getHashOpts []) .excludeMode =
      hash [] [] (some (.obj [("a", .num 1)])) (getHashOpts [])
        .excludeMode :=
  ⟨by decide, by decide,
    hash_volatility_blindness.1 [] [] [("a", .num 1)] "id" .null
      (getHashOpts []) .excludeMode (by decide) (by decide)⟩

/-! ## JSON values and `JSON.parse` (used by the Redis cache client)

The cache client stores strings and revives them with `JSON.parse`.
`Json` is the parse result; `jsonParse` is a JSON text parser modelled from
the ECMA-404 grammar (`JSON.parse` itself is a JS builtin, not part of
src/).  Numbers keep their literal shape (sign, integer digits, fraction
digits, exponent); only zero-ness of the significand matters to the client
(JS truthiness). -/

inductive Json where
  | null : Json
  | bool (b : Bool) : Json
  | num (neg : Bool) (intDigits fracDigits : List Nat) (exp : Int) : Json
  | str (s : List Char) : Json
  | arr (xs : List Json) : Json
  | obj (fs : List (List Char × Json)) : Json
  deriving Repr

/-- JS truthiness of a parsed JSON value: `null`, `false`, a zero number and
the empty string are falsy; objects and arrays are always truthy. -/
def jsTruthyJson : Json → Bool
  | .null => false
  | .bool b => b
  | .num _ intDigits fracDigits _ => (intDigits ++ fracDigits).any (· ≠ 0)
  | .str s => s ≠ []
  | .arr _ => true
  | .obj _ => true

def isJsonWs (c : Char) : Bool :=
  c = ' ' || c = '\t' || c = '\n' || c = '\r'

def skipWs (cs : List Char) : List Char :=
  cs.dropWhile isJsonWs

def isDigitCh (c : Char) : Bool :=
  '0' ≤ c && c ≤ '9'

def digitVal (c : Char) : Nat := c.toNat - '0'.toNat

def hexVal (c : Char) : Option Nat :=
  if '0' ≤ c ∧ c ≤ '9' then some (c.toNat - '0'.toNat)
  else if 'a' ≤ c ∧ c ≤ 'f' then some (c.toNat - 'a'.toNat + 10)
  else if 'A' ≤ c ∧ c ≤ 'F' then some (c.toNat - 'A'.toNat + 10)
  else none

/-- Parse a (possibly empty) run of decimal digits. -/
def takeDigits : List Char → List Nat × List Char
  | [] => ([], [])
  | c :: cs =>
    if isDigitCh c then
      let (ds, rest) := takeDigits cs
      (digitVal c :: ds, rest)
    else ([], c :: cs)

/-- Parse the body of a JSON string after the opening quote, decoding
escapes; returns the content and the remainder after the closing quote. -/
def parseStringBody (fuel : Nat) (cs : List Char) :
    Option (List Char × List Char) :=
  match fuel with
  | 0 => none
  | fuel + 1 =>
    match cs with
    | [] => none
    | c :: rest =>
      if c = '"' then some ([], rest)
      else if c = '\\' then
        match rest with
        | [] => none
        | e :: rest2 =>
          let decoded : Option (Char × List Char) :=
            if e = '"' then some ('"', rest2)
            else if e = '\\' then some ('\\', rest2)
            else if e = '/' then some ('/', rest2)
            else if e = 'b' then some (Char.ofNat 8, rest2)
            else if e = 'f' then some (Char.ofNat 12, rest2)
            else if e = 'n' then some ('\n', rest2)
            else if e = 'r' then some ('\r', rest2)
            else if e = 't' then some ('\t', rest2)
            else if e = 'u' then
              match rest2 with
              | h1 :: h2 :: h3 :: h4 :: rest3 =>
                match hexVal h1, hexVal h2, hexVal h3, hexVal h4 with
                | some a, some b, some c', some d =>
                  some (Char.ofNat (((a * 16 + b) * 16 + c') * 16 + d), rest3)
                | _, _, _, _ => none
              | _ => none
            else none
          match decoded with
          | some (ch, rest') =>
            match parseStringBody fuel rest' with
            | some (s, rem) => some (ch :: s, rem)
            | none => none
          | none => none
      else if c.toNat < 32 then none
      else
        match parseStringBody fuel rest with
        | some (s, rem) => some (c :: s, rem)
        | none => none

/-- Parse a JSON number starting at a digit or minus sign. -/
def parseNumber (cs : List Char) : Option (Json × List Char) :=
  let (neg, cs1) :=
    match cs with
    | '-' :: rest => (true, rest)
    | _ => (false, cs)
  match takeDigits cs1 with
  | ([], _) => none
  | (d :: ds, cs2) =>
    -- ECMA-404: no leading zeros on a multi-digit integer part
    if d = 0 ∧ ds ≠ [] then none
    else
      let (fracDigits, cs3) :=
        match cs2 with
        | '.' :: rest => takeDigits rest
        | _ => ([], cs2)
      let fracOk : Bool :=
        match cs2 with
        | '.' :: _ => !fracDigits.isEmpty
        | _ => true
      let expPart : Option (List Char) :=
        match cs3 with
        | 'e' :: rest => some rest
        | 'E' :: rest => some rest
        | _ => none
      match expPart with
      | none =>
        if fracOk then some (.num neg (d :: ds) fracDigits 0, cs3) else none
      | some rest =>
        let (esign, rest2) :=
          match rest with
          | '+' :: r => ((1 : Int), r)
          | '-' :: r => ((-1 : Int), r)
          | _ => ((1 : Int), rest)
        match takeDigits rest2 with
        | ([], _) => none
        | (e :: es, cs5) =>
          if fracOk then
            some (.num neg (d :: ds) fracDigits
              (esign * Int.ofNat ((e :: es).foldl (fun a d' => a * 10 + d') 0)),
              cs5)
          else none

mutual

/-- Parse one JSON value (leading whitespace allowed). -/
def parseValue (fuel : Nat) (cs : List Char) : Option (Json × List Char) :=
  match fuel with
  | 0 => none
  | fuel + 1 =>
    match skipWs cs with
    | 't' :: 'r' :: 'u' :: 'e' :: rest => some (.bool true, rest)
    | 'f' :: 'a' :: 'l' :: 's' :: 'e' :: rest => some (.bool false, rest)
    | 'n' :: 'u' :: 'l' :: 'l' :: rest => some (.null, rest)
    | '"' :: rest =>
      match parseStringBody (rest.length + 1) rest with
      | some (s, rem) => some (.str s, rem)
      | none => none
    | '[' :: rest =>
      match skipWs rest with
      | ']' :: rem => some (.arr [], rem)
      | _ =>
        match parseElems fuel rest with
        | some (xs, rem) => some (.arr xs, rem)
        | none => none
    | c :: rest =>
      if c = Char.ofNat 123 then
        match skipWs rest with
        | c2 :: rem =>
          if c2 = Char.ofNat 125 then some (.obj [], rem)
          else
            match parseMembers fuel rest with
            | some (fs, rem') => some (.obj fs, rem')
            | none => none
        | [] => none
      else if c = '-' ∨ isDigitCh c then parseNumber (c :: rest)
      else none
    | [] => none

/-- Parse one or more comma-separated array elements and the closing
bracket. -/
def parseElems (fuel : Nat) (cs : List Char) :
    Option (List Json × List Char) :=
  match fuel with
  | 0 => none
  | fuel + 1 =>
    match parseValue fuel cs with
    | none => none
    | some (v, rest) =>
      match skipWs rest with
      | ',' :: rest2 =>
        match parseElems fuel rest2 with
        | some (xs, rem) => some (v :: xs, rem)
        | none => none
      | ']' :: rem => some ([v], rem)
      | _ => none

/-- Parse one or more comma-separated object members and the closing
brace. -/
def parseMembers (fuel : Nat) (cs : List Char) :
    Option (List (List Char × Json) × List Char) :=
  match fuel with
  | 0 => none
  | fuel + 1 =>
    match skipWs cs with
    | '"' :: rest =>
      match parseStringBody (rest.length + 1) rest with
      | none => none
      | some (key, rest2) =>
        match skipWs rest2 with
        | ':' :: rest3 =>
          match parseValue fuel rest3 with
          | none => none
          | some (v, rest4) =>
            match skipWs rest4 with
            | ',' :: rest5 =>
              match parseMembers fuel rest5 with
              | some (fs, rem) => some ((key, v) :: fs, rem)
              | none => none
            | c :: rem =>
              if c = Char.ofNat 125 then some ([(key, v)], rem) else none
            | [] => none
        | _ => none
    | _ => none

end

/-- The `JSON.parse`, modelled from the ECMA-404 JSON grammar (the builtin is
not part of src/): parses one value with surrounding whitespace; any other
input is a syntax error (`none`). -/
def jsonParse (s : String) : Option Json :=
  match parseValue (s.length + 1) s.data with
  | some (v, rest) => if skipWs rest = [] then some v else none
  | none => none

mutual

/-- A minimal `JSON.stringify` (for `setResponse`); claims below never
inspect its output, it only feeds the stored-string state.  Escapes quotes
and backslashes; numeric literals are re-printed structurally. -/
def jsonStringify : Json → List Char
  | .null => 'n' :: 'u' :: 'l' :: 'l' :: []
  | .bool true => 't' :: 'r' :: 'u' :: 'e' :: []
  | .bool false => 'f' :: 'a' :: 'l' :: 's' :: 'e' :: []
  | .num neg intDigits fracDigits exp =>
    (if neg then ['-'] else []) ++
      (intDigits.map (fun d => Char.ofNat (d + '0'.toNat))) ++
      (if fracDigits.isEmpty then [] else
        '.' :: fracDigits.map (fun d => Char.ofNat (d + '0'.toNat))) ++
      (if exp = 0 then [] else 'e' :: (toString exp).data)
  | .str s => '"' :: (s.flatMap (fun c =>
      if c = '"' ∨ c = '\\' then ['\\', c] else [c])) ++ ['"']
  | .arr xs => '[' :: jsonStringifyElems xs ++ [']']
  | .obj fs => Char.ofNat 123 :: jsonStringifyMembers fs ++ [Char.ofNat 125]

def jsonStringifyElems : List Json → List Char
  | [] => []
  | [x] => jsonStringify x
  | x :: y :: xs => jsonStringify x ++ ',' :: jsonStringifyElems (y :: xs)

def jsonStringifyMembers : List (List Char × Json) → List Char
  | [] => []
  | [kv] => '"' :: kv.1 ++ '"' :: ':' :: jsonStringify kv.2
  | kv :: kw :: fs =>
    ('"' :: kv.1 ++ '"' :: ':' :: jsonStringify kv.2) ++
      ',' :: jsonStringifyMembers (kw :: fs)

end

/-! ## Backing-store client (`RedisCache` from redis.ts)

Each client call is characterised by when the underlying promise settles
(`settleMs`) and with what result; `contextualTimeout` races it against the
configured per-request budget exactly as the source does with the
promise-timeout library, classifies the outcome, and emits one metrics
increment (`redis_commands_sent_count.labels(status, function_name).inc()`). -/

inductive CmdStatus where
  | success : CmdStatus
  | timeout : CmdStatus
  | fail : CmdStatus
  deriving Repr, DecidableEq

/-- One increment of the commands counter, labelled as in the source
(`CMD_SENT_STATUS` and the wrapped method's name). -/
structure MetricEvent where
  status : CmdStatus
  functionName : String
  deriving Repr, DecidableEq

/-- Failure of a wrapped store call: the promise-timeout `TimeoutError`, or
the rethrown original cause. -/
inductive RedisFailure where
  | timedOut : RedisFailure
  | cause (e : String) : RedisFailure
  deriving Repr, DecidableEq

/-- An in-flight underlying client call: when it settles and its result. -/
structure UnderlyingCall (α : Type) where
  settleMs : Nat
  result : Except String α

/-- Modelled from the spec: the promise-timeout library's
`timeout(promise, ms)` — resolves with the promise's own outcome when it
settles within `ms`, rejects with `TimeoutError` when it does not. -/
def timeoutRace {α : Type} (ms : Nat) (call : UnderlyingCall α) :
    Except RedisFailure α :=
  if ms < call.settleMs then .error .timedOut
  else
    match call.result with
    | .ok v => .ok v
    | .error e => .error (.cause e)

/-- The `RedisCache.contextualTimeout` from redis.ts: wrap the call with the
configured timeout; on success increment the counter with `success`; on
`TimeoutError` increment with `timeout` and rethrow; on any other error
increment with `fail` and rethrow the original cause. -/
def contextualTimeout {α : Type} (timeoutMs : Nat) (call : UnderlyingCall α)
    (fnName : String) : Except RedisFailure α × List MetricEvent :=
  match timeoutRace timeoutMs call with
  | .ok v => (.ok v, [⟨.success, fnName⟩])
  | .error .timedOut => (.error .timedOut, [⟨.timeout, fnName⟩])
  | .error (.cause e) => (.error (.cause e), [⟨.fail, fnName⟩])

/-- The underlying node-redis client, reduced to what the wrapped calls
observe: the stored strings, the per-key remaining TTL, whether the
connection has been closed, and the registered event listeners. -/
structure RedisClient where
  store : String → Option String
  pttlOf : String → Int
  closed : Bool
  listeners : Nat

/-- Modelled from the spec: a read-style command on the underlying client.
On a closed connection no further commands are processed (the call fails);
`injectErr` injects an underlying connection failure for this call. -/
def clientCall {α : Type} (c : RedisClient) (reply : α) (settleMs : Nat)
    (injectErr : Option String) : UnderlyingCall α :=
  ⟨settleMs,
    if c.closed then .error "the client is closed"
    else
      match injectErr with
      | some e => .error e
      | none => .ok reply⟩

/-- Whether a write-style command reaches the store (it does whenever the
connection is open and the wire does not fail; a caller-side timeout alone
does not unsend a command that was already dispatched). -/
def writeLands (c : RedisClient) (injectErr : Option String) : Bool :=
  !c.closed && injectErr.isNone

def storeInsert (store : String → Option String) (key val : String) :
    String → Option String :=
  fun k => if k = key then some val else store k

def storeRemove (store : String → Option String) (key : String) :
    String → Option String :=
  fun k => if k = key then none else store k

/-- The `RedisCache.setResponse`: `set(key, JSON.stringify(value), PX maxAge)`
wrapped as `contextualTimeout(..., 'setResponse', ...)`.  TTL expiry itself
is the backing store's behaviour and is not modelled (no real time). -/
def RedisCache.setResponse (timeoutMs : Nat) (c : RedisClient) (key : String)
    (value : Json) (maxAge : Nat) (settleMs : Nat) (injectErr : Option String) :
    RedisClient × Except RedisFailure (Option String) × List MetricEvent :=
  let _ := maxAge
  let (r, m) := contextualTimeout timeoutMs
    (clientCall c (some "OK") settleMs injectErr) "setResponse"
  let c' := if writeLands c injectErr then
      { c with store := storeInsert c.store key (String.mk (jsonStringify value)) }
    else c
  (c', r, m)

/-- The `RedisCache.setFlightMarker`: `set(key, 'true', PX maxAge)` wrapped as
`contextualTimeout(..., 'setFlightMarker', ...)`. -/
def RedisCache.setFlightMarker (timeoutMs : Nat) (c : RedisClient)
    (key : String) (maxAge : Nat) (settleMs : Nat) (injectErr : Option String) :
    RedisClient × Except RedisFailure (Option String) × List MetricEvent :=
  let _ := maxAge
  let (r, m) := contextualTimeout timeoutMs
    (clientCall c (some "OK") settleMs injectErr) "setFlightMarker"
  let c' := if writeLands c injectErr then
      { c with store := storeInsert c.store key "true" }
    else c
  (c', r, m)

/-- Failure of a getter: the wrapped redis call failed, or the stored string
was not valid JSON (`JSON.parse` threw). -/
inductive GetFailure where
  | redis (f : RedisFailure) : GetFailure
  | parseFail : GetFailure
  deriving Repr, DecidableEq

/-- The `RedisCache.getResponse`: wrapped `get`; a falsy entry (absent or the
empty string) yields `undefined`; otherwise the entry is `JSON.parse`d. -/
def RedisCache.getResponse (timeoutMs : Nat) (c : RedisClient) (key : String)
    (settleMs : Nat) (injectErr : Option String) :
    Except GetFailure (Option Json) × List MetricEvent :=
  match contextualTimeout timeoutMs
      (clientCall c (c.store key) settleMs injectErr) "getResponse" with
  | (.ok entry, m) =>
    match entry with
    | none => (.ok none, m)
    | some s =>
      if s = "" then (.ok none, m)
      else
        match jsonParse s with
        | some v => (.ok (some v), m)
        | none => (.error .parseFail, m)
  | (.error f, m) => (.error (.redis f), m)

/-- The `RedisCache.getFlightMarker`: wrapped `get`; a falsy entry (absent or
the empty string) yields `false`; otherwise `!!JSON.parse(entry)`. -/
def RedisCache.getFlightMarker (timeoutMs : Nat) (c : RedisClient)
    (key : String) (settleMs : Nat) (injectErr : Option String) :
    Except GetFailure Bool × List MetricEvent :=
  match contextualTimeout timeoutMs
      (clientCall c (c.store key) settleMs injectErr) "getFlightMarker" with
  | (.ok entry, m) =>
    match entry with
    | none => (.ok false, m)
    | some s =>
      if s = "" then (.ok false, m)
      else
        match jsonParse s with
        | some v => (.ok (jsTruthyJson v), m)
        | none => (.error .parseFail, m)
  | (.error f, m) => (.error (.redis f), m)

/-- The `RedisCache.del`: wrapped `del(key)`, replying with the deleted-key
count. -/
def RedisCache.del (timeoutMs : Nat) (c : RedisClient) (key : String)
    (settleMs : Nat) (injectErr : Option String) :
    RedisClient × Except RedisFailure Nat × List MetricEvent :=
  let count := if (c.store key).isSome then 1 else 0
  let (r, m) := contextualTimeout timeoutMs
    (clientCall c count settleMs injectErr) "del"
  let c' := if writeLands c injectErr then
      { c with store := storeRemove c.store key }
    else c
  (c', r, m)

/-- The `RedisCache.ttl`: wrapped `pTTL(key)` (remaining TTL in ms). -/
def RedisCache.ttl (timeoutMs : Nat) (c : RedisClient) (key : String)
    (settleMs : Nat) (injectErr : Option String) :
    Except RedisFailure Int × List MetricEvent :=
  contextualTimeout timeoutMs
    (clientCall c (c.pttlOf key) settleMs injectErr) "ttl"

/-- Modelled from the spec: the underlying client's `quit()` — stops the
connection; afterwards no further commands are processed.  The spec states
close is idempotent and safe to call multiple times, so `quit` on an
already-closed client is modelled as resolving rather than rejecting. -/
def clientQuit (c : RedisClient) (settleMs : Nat) (injectErr : Option String) :
    RedisClient × UnderlyingCall String :=
  ({ c with closed := true },
    ⟨settleMs,
      match injectErr with
      | some e => .error e
      | none => .ok "OK"⟩)

/-- The `RedisCache.close`: `if (!this.client) return;` then
`try (await contextualTimeout(quit(), 'close', ...)) finally
removeAllListeners()` — the listeners are released on every path, the
wrapped result (or rethrown error) is propagated. -/
def RedisCache.close (timeoutMs : Nat) (client : Option RedisClient)
    (settleMs : Nat) (injectErr : Option String) :
    Option RedisClient × Except RedisFailure Unit × List MetricEvent :=
  match client with
  | none => (none, .ok (), [])
  | some c =>
    let (c1, call) := clientQuit c settleMs injectErr
    let (r, m) := contextualTimeout timeoutMs call "close"
    (some { c1 with listeners := 0 }, r.map (fun _ => ()), m)

theorem contextualTimeout_timedOut {α : Type} (t : Nat)
    (call : UnderlyingCall α) (fn : String) (h : t < call.settleMs) :
    contextualTimeout t call fn = (.error .timedOut, [⟨.timeout, fn⟩]) := by
  simp [contextualTimeout, timeoutRace, h]

theorem contextualTimeout_ok {α : Type} (t : Nat) (call : UnderlyingCall α)
    (fn : String) (hs : call.settleMs ≤ t) (v : α) (hv : call.result = .ok v) :
    contextualTimeout t call fn = (.ok v, [⟨.success, fn⟩]) := by
  simp [contextualTimeout, timeoutRace, Nat.not_lt.mpr hs, hv]

theorem contextualTimeout_fail {α : Type} (t : Nat) (call : UnderlyingCall α)
    (fn : String) (hs : call.settleMs ≤ t) (e : String)
    (he : call.result = .error e) :
    contextualTimeout t call fn = (.error (.cause e), [⟨.fail, fn⟩]) := by
  simp [contextualTimeout, timeoutRace, Nat.not_lt.mpr hs, he]

theorem contextualTimeout_one_metric {α : Type} (t : Nat)
    (call : UnderlyingCall α) (fn : String) :
    (contextualTimeout t call fn).2.length = 1 := by
  rcases h : timeoutRace t call with f | v
  · cases f <;> simp [contextualTimeout, h]
  · simp [contextualTimeout, h]

/-- C5: every backing-store operation is wrapped with the configured
per-call timeout: first, the wrapper classifies outcomes — a call settling
after the budget fails with the `Timeout` kind and increments the commands
counter labelled with the operation name and `timeout`; any other underlying
failure is rethrown as the original cause with a `fail`-labelled increment;
success increments with `success`; exactly one increment happens on every
outcome.  Second, each of `setResponse`, `setFlightMarker`, `getResponse`,
`getFlightMarker`, `del`, `ttl` and `close` routes its underlying client
call through this wrapper under its own operation name (for the getters the
wrapper's metrics are emitted unchanged and a wrapper failure is propagated
as the failure result; `close` maps the wrapper's value to `unit`). -/
theorem redis_ops_timeout_wrapped :
    (∀ (α : Type) (t : Nat) (call : UnderlyingCall α) (fn : String),
      (t < call.settleMs →
        contextualTimeout t call fn =
          (.error .timedOut, [⟨.timeout, fn⟩])) ∧
      (call.settleMs ≤ t → ∀ e, call.result = .error e →
        contextualTimeout t call fn = (.error (.cause e), [⟨.fail, fn⟩])) ∧
      (call.settleMs ≤ t → ∀ v, call.result = .ok v →
        contextualTimeout t call fn = (.ok v, [⟨.success, fn⟩])) ∧
      (contextualTimeout t call fn).2.length = 1) ∧
    (∀ (t : Nat) (c : RedisClient) (key : String) (value : Json)
      (maxAge s : Nat) (ie : Option String),
      (RedisCache.setResponse t c key value maxAge s ie).2 =
        contextualTimeout t (clientCall c (some "OK") s ie) "setResponse") ∧
    (∀ (t : Nat) (c : RedisClient) (key : String) (maxAge s : Nat)
      (ie : Option String),
      (RedisCache.setFlightMarker t c key maxAge s ie).2 =
        contextualTimeout t (clientCall c (some "OK") s ie)
          "setFlightMarker") ∧
    (∀ (t : Nat) (c : RedisClient) (key : String) (s : Nat)
      (ie : Option String),
      (RedisCache.getResponse t c key s ie).2 =
        (contextualTimeout t (clientCall c (c.store key) s ie)
          "getResponse").2 ∧
      ∀ f, (contextualTimeout t (clientCall c (c.store key) s ie)
          "getResponse").1 = .error f →
        (RedisCache.getResponse t c key s ie).1 = .error (.redis f)) ∧
    (∀ (t : Nat) (c : RedisClient) (key : String) (s : Nat)
      (ie : Option String),
      (RedisCache.getFlightMarker t c key s ie).2 =
        (contextualTimeout t (clientCall c (c.store key) s ie)
          "getFlightMarker").2 ∧
      ∀ f, (contextualTimeout t (clientCall c (c.store key) s ie)
          "getFlightMarker").1 = .error f →
        (RedisCache.getFlightMarker t c key s ie).1 = .error (.redis f)) ∧
    (∀ (t : Nat) (c : RedisClient) (key : String) (s : Nat)
      (ie : Option String),
      (RedisCache.del t c key s ie).2 =
        contextualTimeout t
          (clientCall c (if (c.store key).isSome then 1 else 0) s ie) "del") ∧
    (∀ (t : Nat) (c : RedisClient) (key : String) (s : Nat)
      (ie : Option String),
      RedisCache.ttl t c key s ie =
        contextualTimeout t (clientCall c (c.pttlOf key) s ie) "ttl") ∧
    (∀ (t : Nat) (c : RedisClient) (s : Nat) (ie : Option String),
      (RedisCache.close t (some c) s ie).2 =
        ((contextualTimeout t (clientQuit c s ie).2 "close").1.map
          (fun _ => ()),
         (contextualTimeout t (clientQuit c s ie).2 "close").2)) := by
  refine ⟨?_, ?_, ?_, ?_, ?_, ?_, ?_, ?_⟩
  · intro α t call fn
    exact ⟨contextualTimeout_timedOut t call fn,
      fun hs e he => contextualTimeout_fail t call fn hs e he,
      fun hs v hv => contextualTimeout_ok t call fn hs v hv,
      contextualTimeout_one_metric t call fn⟩
  · intro t c key value maxAge s ie
    rfl
  · intro t c key maxAge s ie
    rfl
  · intro t c key s ie
    constructor
    · rcases h : contextualTimeout t (clientCall c (c.store key) s ie)
          "getResponse" with ⟨r, m⟩
      rcases r with f | v
      · simp [RedisCache.getResponse, h]
      · rcases v with _ | s'
        · simp [RedisCache.getResponse, h]
        · by_cases hs : s' = ""
          · simp [RedisCache.getResponse, h, hs]
          · rcases hp : jsonParse s' with _ | v'
            · simp [RedisCache.getResponse, h, hs, hp]
            · simp [RedisCache.getResponse, h, hs, hp]
    · intro f hf
      rcases h : contextualTimeout t (clientCall c (c.store key) s ie)
          "getResponse" with ⟨r, m⟩
      rw [h] at hf
      simp at hf
      subst hf
      simp [RedisCache.getResponse, h]
  · intro t c key s ie
    constructor
    · rcases h : contextualTimeout t (clientCall c (c.store key) s ie)
          "getFlightMarker" with ⟨r, m⟩
      rcases r with f | v
      · simp [RedisCache.getFlightMarker, h]
      · rcases v with _ | s'
        · simp [RedisCache.getFlightMarker, h]
        · by_cases hs : s' = ""
          · simp [RedisCache.getFlightMarker, h, hs]
          · rcases hp : jsonParse s' with _ | v'
            · simp [RedisCache.getFlightMarker, h, hs, hp]
            · simp [RedisCache.getFlightMarker, h, hs, hp]
    · intro f hf
      rcases h : contextualTimeout t (clientCall c (c.store key) s ie)
          "getFlightMarker" with ⟨r, m⟩
      rw [h] at hf
      simp at hf
      subst hf
      simp [RedisCache.getFlightMarker, h]
  · intro t c key s ie
    rfl
  · intro t c key s ie
    rfl
  · intro t c s ie
    rcases h : contextualTimeout t (clientQuit c s ie).2 "close" with ⟨r, m⟩
    simp [RedisCache.close, h]

theorem redis_ops_timeout_wrapped_witness :
    500 < 600 ∧
    contextualTimeout 500 (⟨600, .ok (1 : Nat)⟩ : UnderlyingCall Nat)
        "setResponse" =
      (.error .timedOut, [⟨.timeout, "setResponse"⟩]) :=
  ⟨by decide,
    (redis_ops_timeout_wrapped.1 Nat 500 ⟨600, .ok 1⟩ "setResponse").1
      (by decide)⟩

/-- C9: `close` is idempotent and safe to call multiple times: a second
close after a completed close succeeds without error (the underlying quit on
an already-closed connection is modelled from the spec's idempotence
wording); after any close call — including one whose quit times out or
fails — all registered listeners are released and the connection is closed;
and no further commands are processed on the closed client (reads fail and
writes do not reach the store). -/
theorem redisCache_close_idempotent :
    (∀ (t : Nat) (c : RedisClient) (s1 : Nat) (ie1 : Option String)
      (s2 : Nat), s2 ≤ t →
      (RedisCache.close t (RedisCache.close t (some c) s1 ie1).1 s2
          none).2.1 = .ok () ∧
      ∀ c2, (RedisCache.close t (RedisCache.close t (some c) s1 ie1).1 s2
          none).1 = some c2 → c2.closed = true ∧ c2.listeners = 0) ∧
    (∀ (t : Nat) (c : RedisClient) (s : Nat) (ie : Option String) (c1 : _),
      (RedisCache.close t (some c) s ie).1 = some c1 →
      c1.listeners = 0 ∧ c1.closed = true) ∧
    (∀ (c1 : RedisClient), c1.closed = true →
      (∀ (α : Type) (reply : α) (s' : Nat) (ie' : Option String),
        (clientCall c1 reply s' ie').result = .error "the client is closed") ∧
      (∀ (t : Nat) (key : String) (maxAge s' : Nat) (ie' : Option String),
        ((RedisCache.setFlightMarker t c1 key maxAge s' ie').1).store =
          c1.store)) := by
  refine ⟨?_, ?_, ?_⟩
  · intro t c s1 ie1 s2 h2
    constructor
    · simp [RedisCache.close, clientQuit, contextualTimeout, timeoutRace,
        Nat.not_lt.mpr h2, Except.map]
    · intro c2 hc2
      simp [RedisCache.close, clientQuit, contextualTimeout, timeoutRace,
        Nat.not_lt.mpr h2] at hc2
      rw [← hc2]
      exact ⟨rfl, rfl⟩
  · intro t c s ie c1 hc1
    simp [RedisCache.close, clientQuit] at hc1
    rw [← hc1]
    exact ⟨rfl, rfl⟩
  · intro c1 hcl
    constructor
    · intro α reply s' ie'
      simp [clientCall, hcl]
    · intro t key maxAge s' ie'
      simp [RedisCache.setFlightMarker, writeLands, hcl]

theorem redisCache_close_idempotent_witness :
    (2 : Nat) ≤ 500 ∧
    (RedisCache.close 500
        (RedisCache.close 500 (some ⟨fun _ => none, fun _ => -2, false, 3⟩)
          1 none).1 2 none).2.1 = .ok () :=
  ⟨by decide,
    ((redisCache_close_idempotent.1) 500 ⟨fun _ => none, fun _ => -2, false, 3⟩
      1 none 2 (by decide)).1⟩

/-- C10 (amended): flight-marker round trip at the client interface: with a
live connection and a call within the timeout budget, an absent key reads as
`false`; a key holding the string `'true'` (the only value
`setFlightMarker` writes) reads as `true`, so a landed `setFlightMarker`
followed by `getFlightMarker` yields `true`; a stored non-empty string that
parses to a JSON-falsy value reads as `false`; a stored non-empty string
that is not valid JSON makes `getFlightMarker` fail rather than return a
boolean; and the stored empty string — which is JS-falsy but not valid
JSON — reads as `false` without being parsed. -/
theorem flight_marker_roundtrip :
    (∀ (t : Nat) (c : RedisClient) (key : String) (s : Nat), s ≤ t →
      c.closed = false → c.store key = none →
      (RedisCache.getFlightMarker t c key s none).1 = .ok false) ∧
    (∀ (t : Nat) (c : RedisClient) (key : String) (s : Nat), s ≤ t →
      c.closed = false → c.store key = some "true" →
      (RedisCache.getFlightMarker t c key s none).1 = .ok true) ∧
    (∀ (t : Nat) (c : RedisClient) (key : String) (maxAge s1 s2 : Nat),
      s2 ≤ t → c.closed = false →
      (RedisCache.getFlightMarker t
        (RedisCache.setFlightMarker t c key maxAge s1 none).1 key s2
          none).1 = .ok true) ∧
    (∀ (t : Nat) (c : RedisClient) (key : String) (s : Nat) (str : String)
      (v : Json), s ≤ t → c.closed = false → c.store key = some str →
      str ≠ "" → jsonParse str = some v → jsTruthyJson v = false →
      (RedisCache.getFlightMarker t c key s none).1 = .ok false) ∧
    (∀ (t : Nat) (c : RedisClient) (key : String) (s : Nat) (str : String),
      s ≤ t → c.closed = false → c.store key = some str → str ≠ "" →
      jsonParse str = none →
      (RedisCache.getFlightMarker t c key s none).1 = .error .parseFail) ∧
    (∀ (t : Nat) (c : RedisClient) (key : String) (s : Nat), s ≤ t →
      c.closed = false → c.store key = some "" →
      (RedisCache.getFlightMarker t c key s none).1 = .ok false) := by
  have hok : ∀ (t : Nat) (c : RedisClient) (key : String) (s : Nat),
      s ≤ t → c.closed = false →
      contextualTimeout t (clientCall c (c.store key) s none)
        "getFlightMarker" =
        (.ok (c.store key), [⟨.success, "getFlightMarker"⟩]) := by
    intro t c key s hs hc
    exact contextualTimeout_ok t _ _ hs _ (by simp [clientCall, hc])
  refine ⟨?_, ?_, ?_, ?_, ?_, ?_⟩
  · intro t c key s hs hc hst
    simp only [RedisCache.getFlightMarker]
    rw [hok t c key s hs hc, hst]
  · intro t c key s hs hc hst
    simp only [RedisCache.getFlightMarker]
    rw [hok t c key s hs hc, hst]
    rfl
  · intro t c key maxAge s1 s2 h2 hc
    have hc' : ((RedisCache.setFlightMarker t c key maxAge s1 none).1).closed =
        false := by
      simp [RedisCache.setFlightMarker, writeLands, hc]
    have hst : ((RedisCache.setFlightMarker t c key maxAge s1 none).1).store
        key = some "true" := by
      simp [RedisCache.setFlightMarker, writeLands, hc, storeInsert]
    simp only [RedisCache.getFlightMarker]
    rw [hok t _ key s2 h2 hc', hst]
    rfl
  · intro t c key s str v hs hc hst hne hp hfalse
    simp only [RedisCache.getFlightMarker]
    rw [hok t c key s hs hc, hst]
    simp [hne, hp, hfalse]
  · intro t c key s str hs hc hst hne hp
    simp only [RedisCache.getFlightMarker]
    rw [hok t c key s hs hc, hst]
    simp [hne, hp]
  · intro t c key s hs hc hst
    simp only [RedisCache.getFlightMarker]
    rw [hok t c key s hs hc, hst]
    rfl

theorem flight_marker_roundtrip_witness :
    (0 : Nat) ≤ 500 ∧
    (⟨fun _ => some "true", fun _ => -1, false, 0⟩ : RedisClient).closed =
      false ∧
    (RedisCache.getFlightMarker 500
      ⟨fun _ => some "true", fun _ => -1, false, 0⟩ "k" 0 none).1 =
      .ok true :=
  ⟨by decide, rfl,
    (flight_marker_roundtrip.2.1) 500
      ⟨fun _ => some "true", fun _ => -1, false, 0⟩ "k" 0 (by decide) rfl
      rfl⟩

theorem flight_marker_empty_string_counterexample :
    (RedisCache.getFlightMarker 500
      ⟨fun _ => some "", fun _ => -1, false, 0⟩ "k" 0 none).1 = .ok false ∧
    jsonParse "" = none := by
  constructor
  · rfl
  · rfl

/-! ## `redactOptions` (redis.ts)

`redactOptions` masks secrets with two JS regex replaces:
`password.replace(/.+/g, '*****')` and
`url.replace(/:\/\/.+@/g, '://*****@')`.  In a JS regex `.` matches every
character except the four line terminators, and `.+` is greedy, so the URL
pattern spans from each `://` to the last `@` in the same line-terminator-free
run.  Both replaces are modelled character-exactly below. -/

/-- JS regex line terminators (the characters `.` does not match). -/
def isLineTerm (c : Char) : Bool :=
  c = '\n' || c = '\r' || c = Char.ofNat 0x2028 || c = Char.ofNat 0x2029

mutual

/-- The `replace(/.+/g, '*****')`: every maximal non-empty run of
non-line-terminator characters becomes `*****`. -/
def maskAll : List Char → List Char
  | [] => []
  | c :: cs =>
    if isLineTerm c then c :: maskAll cs
    else "*****".data ++ maskSkip cs

/-- Skip the rest of the current (already masked) run. -/
def maskSkip : List Char → List Char
  | [] => []
  | c :: cs =>
    if isLineTerm c then c :: maskAll cs
    else maskSkip cs

end

/-- Index of the last `@` in a list, if any. -/
def lastAtIdx : List Char → Option Nat
  | [] => none
  | c :: cs =>
    match lastAtIdx cs with
    | some i => some (i + 1)
    | none => if c = '@' then some 0 else none

/-- After a `://`, try to complete the greedy `.+@` part of the pattern:
take the non-line-terminator run, find the last `@` in it at index at least
one (`.+` needs one character), and split off credentials and remainder. -/
def tryAt (rest : List Char) : Option (List Char × List Char) :=
  match lastAtIdx (rest.takeWhile (fun c => !isLineTerm c)) with
  | some q => if 1 ≤ q then some (rest.take q, rest.drop (q + 1)) else none
  | none => none

def startsWithSlashSlash : List Char → Bool
  | a :: b :: _ => a = '/' && b = '/'
  | _ => false

/-- Whether `://` occurs anywhere in the list. -/
def hasProto : List Char → Bool
  | [] => false
  | c :: cs => (c = ':' && startsWithSlashSlash cs) || hasProto cs

/-- Leftmost match of `/:\/\/.+@/`: returns the text before the match, the
credentials (`.+`), and the text after the match, scanning match starts left
to right exactly as the regex engine does. -/
def findMatch : List Char → Option (List Char × List Char × List Char)
  | [] => none
  | c :: cs =>
    if c = ':' ∧ startsWithSlashSlash cs then
      match tryAt (cs.drop 2) with
      | some (cr, a) => some ([], cr, a)
      | none => (findMatch cs).map (fun x => (c :: x.1, x.2.1, x.2.2))
    else (findMatch cs).map (fun x => (c :: x.1, x.2.1, x.2.2))

/-- Global replacement loop of `replace(/:\/\/.+@/g, '://*****@')`; `fuel`
bounds the number of replacements (every match consumes at least one
character, so `length + 1` fuel always suffices). -/
def redactUrlFuel : Nat → List Char → List Char
  | 0, s => s
  | fuel + 1, s =>
    match findMatch s with
    | none => s
    | some (p, _, a) => p ++ "://*****@".data ++ redactUrlFuel fuel a

def redactUrl (s : List Char) : List Char :=
  redactUrlFuel (s.length + 1) s

/-- The `RedisOptions`, reduced to the fields `redactOptions` can touch plus
representative connection settings. -/
structure RedisOptions where
  host : String
  port : Nat
  password : Option String
  url : Option String
  timeout : Nat
  maxAge : Nat
  deriving Repr, DecidableEq

def jsTruthyStrOpt : Option String → Bool
  | none => false
  | some s => s ≠ ""

/-- The `redactOptions` from redis.ts:
`if (opts.password) opts.password = opts.password.replace(/.+/g, '*****');
 if (opts.url) opts.url = opts.url.replace(/:\/\/.+@/g, '://*****@');`. -/
def redactOptions (opts : RedisOptions) : RedisOptions :=
  let maskedPw := some (String.mk (maskAll ((opts.password.getD "").data)))
  let opts1 :=
    if jsTruthyStrOpt opts.password then { opts with password := maskedPw }
    else opts
  let maskedUrl := some (String.mk (redactUrl ((opts1.url.getD "").data)))
  if jsTruthyStrOpt opts1.url then { opts1 with url := maskedUrl }
  else opts1

theorem maskSkip_eq_nil {s : List Char}
    (h : ∀ c ∈ s, isLineTerm c = false) : maskSkip s = [] := by
  induction s with
  | nil => rfl
  | cons c cs ih =>
    have hc : isLineTerm c = false := h c (List.mem_cons_self c cs)
    simp only [maskSkip, hc, if_false, Bool.false_eq_true]
    exact ih (fun x hx => h x (List.mem_cons_of_mem c hx))

theorem maskAll_of_single_run {s : List Char} (hne : s ≠ [])
    (h : ∀ c ∈ s, isLineTerm c = false) : maskAll s = "*****".data := by
  cases s with
  | nil => exact absurd rfl hne
  | cons c cs =>
    have hc : isLineTerm c = false := h c (List.mem_cons_self c cs)
    simp only [maskAll, hc, if_false, Bool.false_eq_true]
    rw [maskSkip_eq_nil (fun x hx => h x (List.mem_cons_of_mem c hx))]
    simp

theorem lastAtIdx_eq_none {s : List Char} (h : '@' ∉ s) :
    lastAtIdx s = none := by
  induction s with
  | nil => rfl
  | cons c cs ih =>
    have hc : ¬ c = '@' := fun h' => h (h' ▸ List.mem_cons_self c cs)
    simp only [lastAtIdx, ih (fun h' => h (List.mem_cons_of_mem c h')), hc,
      if_false]

theorem lastAtIdx_append {xs ys : List Char} (h : '@' ∉ ys) :
    lastAtIdx (xs ++ '@' :: ys) = some xs.length := by
  induction xs with
  | nil => simp [lastAtIdx, lastAtIdx_eq_none h]
  | cons x xs ih => simp [lastAtIdx, ih]

theorem takeWhile_append_all {p : Char → Bool} {xs : List Char}
    (h : ∀ c ∈ xs, p c = true) (ys : List Char) :
    (xs ++ ys).takeWhile p = xs ++ ys.takeWhile p := by
  induction xs with
  | nil => rfl
  | cons x xs ih =>
    have hx : p x = true := h x (List.mem_cons_self x xs)
    simp only [List.cons_append, List.takeWhile_cons, hx, if_true]
    rw [ih (fun c hc => h c (List.mem_cons_of_mem x hc))]

theorem mem_of_mem_takeWhile {p : Char → Bool} {c : Char} :
    ∀ {l : List Char}, c ∈ l.takeWhile p → c ∈ l := by
  intro l
  induction l with
  | nil => intro h; exact absurd h (by simp)
  | cons x xs ih =>
    intro h
    by_cases hx : p x
    · simp only [List.takeWhile_cons, hx, if_true, List.mem_cons] at h
      rcases h with h | h
      · exact h ▸ List.mem_cons_self x xs
      · exact List.mem_cons_of_mem x (ih h)
    · simp only [List.takeWhile_cons, hx, if_false] at h
      exact absurd h (by simp [hx])

theorem tryAt_spec {creds post : List Char} (hne : creds ≠ [])
    (hLT : ∀ c ∈ creds, isLineTerm c = false) (hpost : '@' ∉ post) :
    tryAt (creds ++ '@' :: post) = some (creds, post) := by
  have hrun : (creds ++ '@' :: post).takeWhile (fun c => !isLineTerm c) =
      creds ++ '@' :: post.takeWhile (fun c => !isLineTerm c) := by
    rw [takeWhile_append_all (fun c hc => by simp [hLT c hc])]
    simp [List.takeWhile_cons, isLineTerm]
  have hnoAt : '@' ∉ post.takeWhile (fun c => !isLineTerm c) :=
    fun h => hpost (mem_of_mem_takeWhile h)
  have hlen : 1 ≤ creds.length := by
    cases creds with
    | nil => exact absurd rfl hne
    | cons a l => simp
  simp only [tryAt, hrun, lastAtIdx_append hnoAt, hlen, if_true]
  have ht : (creds ++ '@' :: post).take creds.length = creds :=
    List.take_left creds ('@' :: post)
  have hd : (creds ++ '@' :: post).drop (creds.length + 1) = post := by
    have h2 : creds ++ '@' :: post = (creds ++ ['@']) ++ post := by simp
    rw [h2]
    exact List.drop_left' (by simp)
  rw [ht, hd]

theorem startsWithSlashSlash_cons2 (a b : Char) (l : List Char) :
    startsWithSlashSlash (a :: b :: l) = (a = '/' && b = '/') := rfl

theorem findMatch_eq_none {s : List Char} (h : hasProto s = false) :
    findMatch s = none := by
  induction s with
  | nil => rfl
  | cons c cs ih =>
    simp only [hasProto, Bool.or_eq_false_iff, Bool.and_eq_false_iff] at h
    have hcond : ¬ (c = ':' ∧ (startsWithSlashSlash cs : Bool) = true) := by
      rintro ⟨h1, h2⟩
      rcases h.1 with h3 | h3
      · exact absurd h1 (by simpa using h3)
      · rw [h2] at h3; cases h3
    simp only [findMatch, if_neg hcond, ih h.2, Option.map_none']

theorem findMatch_decompose {pre : List Char} (rest0 : List Char)
    (cr a : List Char) (hpre : hasProto pre = false)
    (htry : tryAt rest0 = some (cr, a)) :
    findMatch (pre ++ ':' :: '/' :: '/' :: rest0) = some (pre, cr, a) := by
  induction pre with
  | nil =>
    rw [List.nil_append]
    show (match tryAt (('/' :: '/' :: rest0).drop 2) with
      | some (cr, a) => some (([] : List Char), cr, a)
      | none => (findMatch ('/' :: '/' :: rest0)).map
          (fun x => (':' :: x.1, x.2.1, x.2.2))) = some ([], cr, a)
    rw [show ('/' :: '/' :: rest0).drop 2 = rest0 from rfl, htry]
  | cons c pre' ih =>
    simp only [hasProto, Bool.or_eq_false_iff, Bool.and_eq_false_iff] at hpre
    have hcond : ¬ (c = ':' ∧
        (startsWithSlashSlash (pre' ++ ':' :: '/' :: '/' :: rest0) : Bool) =
          true) := by
      rintro ⟨h1, h2⟩
      rcases pre' with _ | ⟨d1, _ | ⟨d2, pre''⟩⟩
      · simp [startsWithSlashSlash_cons2] at h2
      · simp [startsWithSlashSlash_cons2] at h2
      · rw [List.cons_append, List.cons_append,
          startsWithSlashSlash_cons2] at h2
        simp only [Bool.and_eq_true, decide_eq_true_eq] at h2
        rcases hpre.1 with h3 | h3
        · exact absurd h1 (by simpa using h3)
        · rw [startsWithSlashSlash_cons2] at h3
          simp only [Bool.and_eq_false_iff] at h3
          rcases h3 with h4 | h4 <;>
            simp [h2.1, h2.2] at h4
    simp only [List.cons_append, findMatch, List.append_eq]
    rw [if_neg hcond, ih hpre.2]
    rfl

theorem redactUrlFuel_of_none {s : List Char} (h : findMatch s = none) :
    ∀ fuel, redactUrlFuel fuel s = s := by
  intro fuel
  cases fuel with
  | zero => rfl
  | succ n => simp [redactUrlFuel, h]

theorem redactUrl_single_cred {pre creds post : List Char}
    (hpre : hasProto pre = false) (hpost : hasProto post = false)
    (hne : creds ≠ []) (hLT : ∀ c ∈ creds, isLineTerm c = false)
    (hAt : '@' ∉ post) :
    redactUrl (pre ++ ':' :: '/' :: '/' :: creds ++ '@' :: post) =
      pre ++ "://*****@".data ++ post := by
  have hfm : findMatch (pre ++ ':' :: '/' :: '/' :: (creds ++ '@' :: post)) =
      some (pre, creds, post) :=
    findMatch_decompose (creds ++ '@' :: post) creds post hpre
      (tryAt_spec hne hLT hAt)
  show redactUrlFuel _ (pre ++ ':' :: '/' :: '/' :: creds ++ '@' :: post) = _
  have hshape : pre ++ ':' :: '/' :: '/' :: creds ++ '@' :: post =
      pre ++ ':' :: '/' :: '/' :: (creds ++ '@' :: post) := by simp
  rw [hshape]
  simp only [redactUrlFuel, hfm]
  rw [redactUrlFuel_of_none (findMatch_eq_none hpost)]

/-- C8 counterexample: the claim "any non-empty password equals the fixed
mask `*****` after redaction" fails on a password containing a newline: the
JS regex `/.+/g` masks each line separately, so `redactOptions` turns the
non-empty password `a\nb` into `*****\n*****`, which is not `*****`. -/
theorem redactOptions_newline_counterexample :
    (redactOptions
      ⟨"127.0.0.1", 6379, some "a\nb", none, 500, 90000⟩).password =
        some "*****\n*****" ∧
    ("a\nb" : String) ≠ "" ∧
    ("*****\n*****" : String) ≠ "*****" := by
  refine ⟨rfl, by decide, by decide⟩

/-- C8 (amended): `redactOptions` masks secrets exactly as the two JS
regex replaces do: a non-empty password has every maximal
line-terminator-free non-empty segment replaced by `*****` (in particular a
password without line terminators becomes exactly `*****`); a non-empty URL
has every `://`-to-last-`@` credentials span (greedy, within one
line-terminator-free run) replaced so it reads `://*****@`; and options
with no password and no credential-bearing URL are returned unchanged. -/
theorem redactOptions_masks_secrets :
    (∀ (opts : RedisOptions) (s : String), opts.password = some s → s ≠ "" →
      (redactOptions opts).password = some (String.mk (maskAll s.data))) ∧
    (∀ s : List Char, s ≠ [] → (∀ c ∈ s, isLineTerm c = false) →
      maskAll s = "*****".data) ∧
    (∀ (opts : RedisOptions) (u : String), opts.url = some u → u ≠ "" →
      (redactOptions opts).url = some (String.mk (redactUrl u.data))) ∧
    (∀ pre creds post : List Char,
      hasProto pre = false → hasProto post = false → creds ≠ [] →
      (∀ c ∈ creds, isLineTerm c = false) → '@' ∉ post →
      redactUrl (pre ++ ':' :: '/' :: '/' :: creds ++ '@' :: post) =
        pre ++ "://*****@".data ++ post) ∧
    (∀ opts : RedisOptions, jsTruthyStrOpt opts.password = false →
      (∀ u : String, opts.url = some u → findMatch u.data = none) →
      redactOptions opts = opts) := by
  refine ⟨?_, ?_, ?_, ?_, ?_⟩
  · intro opts s hp hs
    simp only [redactOptions]
    split
    · split <;> simp [hp]
    · rename_i hcond
      rw [hp] at hcond
      simp [jsTruthyStrOpt, hs] at hcond
  · intro s hne hLT
    exact maskAll_of_single_run hne hLT
  · intro opts u hu hne
    simp only [redactOptions]
    split
    · split
      · simp [hu]
      · rename_i hurl
        simp [jsTruthyStrOpt, hu, hne] at hurl
    · split
      · simp [hu]
      · rename_i hurl
        simp [jsTruthyStrOpt, hu, hne] at hurl
  · intro pre creds post h1 h2 h3 h4 h5
    exact redactUrl_single_cred h1 h2 h3 h4 h5
  · intro opts hpw hurl
    obtain ⟨host, port, pw, url, tmo, ma⟩ := opts
    simp only [redactOptions, hpw, if_false, Bool.false_eq_true]
    cases url with
    | none => rfl
    | some u =>
      by_cases hu : u = ""
      · subst hu
        rfl
      · have hfm := hurl u rfl
        have : redactUrl u.data = u.data := redactUrlFuel_of_none hfm _
        simp [jsTruthyStrOpt, hu, this]

theorem redactOptions_masks_secrets_witness :
    hasProto "redis".data = false ∧
    hasProto "host:6379/0".data = false ∧
    "user:pass".data ≠ [] ∧
    (∀ c ∈ "user:pass".data, isLineTerm c = false) ∧
    '@' ∉ "host:6379/0".data ∧
    redactUrl ("redis".data ++ ':' :: '/' :: '/' ::
        "user:pass".data ++ '@' :: "host:6379/0".data) =
      "redis".data ++ "://*****@".data ++ "host:6379/0".data :=
  ⟨by decide, by decide, by decide, by decide, by decide,
    (redactOptions_masks_secrets.2.2.2.1) "redis".data "user:pass".data
      "host:6379/0".data (by decide) (by decide) (by decide) (by decide)
      (by decide)⟩

/-- C1: `getWithCoalescing` implements the coalescing-waiter loop exactly:
its full visible trace (returned entry, `get` calls, `isInFlight` calls,
sleeps) coincides, for every retry budget and every behaviour of the two
probes, with the attempt-by-attempt loop `awaitProduction` written from the
specification (1-based attempts: `get k` first, present entry returned
immediately; otherwise `isInFlight k`, false returns absent immediately;
otherwise sleep `interval k` and continue), and with budget 0 it returns
absent without calling `get` at all. -/
theorem getWithCoalescing_implements_awaitProduction {Entry : Type}
    (get : Nat → Option Entry) (isInFlight : Nat → Bool) (retries : Nat)
    (interval : Nat → Nat) :
    getWithCoalescing get isInFlight retries interval =
      awaitProduction get isInFlight interval 1 retries ∧
    getWithCoalescing get isInFlight 0 interval =
      ⟨none, [], [], []⟩ := by
  constructor
  · have h := getWithCoalescingGo_eq_awaitProduction get isInFlight interval
      retries retries (Nat.le_refl _)
    simpa [getWithCoalescing, Nat.sub_self] using h
  · rfl

/-- C4: the backoff formula: for every 1-based retry count `n`,
`exponentialBackOffMs n base max coef = min max (base * coef ^ (n - 1))`, and
with the source's defaults (base 100, max 1000, coefficient 2) the values for
n = 1..5 are 100, 200, 400, 800, 1000. -/
theorem exponentialBackOffMs_formula (n base maxMs coef : Nat) (h : 1 ≤ n) :
    exponentialBackOffMs n base maxMs coef =
      Nat.min maxMs (base * coef ^ (n - 1)) ∧
    exponentialBackOffMs 1 = 100 ∧ exponentialBackOffMs 2 = 200 ∧
    exponentialBackOffMs 3 = 400 ∧ exponentialBackOffMs 4 = 800 ∧
    exponentialBackOffMs 5 = 1000 := by
  refine ⟨rfl, ?_, ?_, ?_, ?_, ?_⟩ <;> decide

theorem exponentialBackOffMs_formula_witness :
    1 ≤ 3 ∧ exponentialBackOffMs 3 100 1000 2 =
      Nat.min 1000 (100 * 2 ^ (3 - 1)) :=
  ⟨by decide, (exponentialBackOffMs_formula 3 100 1000 2 (by decide)).1⟩

/-- C6: bounded termination of the coalescing waiter: with retry budget `R`
the (total, structurally recursive) loop performs at most `R` `get` calls, at
most `R` `isInFlight` calls and at most `R` sleeps, and when every value of
the interval function is at most `I` the total slept time is at most
`R * I`. -/
theorem getWithCoalescing_bounded {Entry : Type} (get : Nat → Option Entry)
    (isInFlight : Nat → Bool) (retries : Nat) (interval : Nat → Nat) :
    (getWithCoalescing get isInFlight retries interval).gets.length ≤ retries ∧
    (getWithCoalescing get isInFlight retries interval).flightChecks.length ≤ retries ∧
    (getWithCoalescing get isInFlight retries interval).sleeps.length ≤ retries ∧
    ∀ bound : Nat, (∀ n : Nat, interval n ≤ bound) →
      (getWithCoalescing get isInFlight retries interval).sleeps.sum ≤
        retries * bound := by
  have h := getWithCoalescingGo_length_le get isInFlight interval retries retries
  refine ⟨h.1, h.2.1, h.2.2.1, ?_⟩
  intro bound hbound
  have hmem : ∀ p ∈ (getWithCoalescing get isInFlight retries interval).sleeps,
      p ≤ bound := by
    intro p hp
    obtain ⟨n, rfl⟩ := h.2.2.2 p hp
    exact hbound n
  calc (getWithCoalescing get isInFlight retries interval).sleeps.sum
      ≤ (getWithCoalescing get isInFlight retries interval).sleeps.length * bound :=
        list_sum_le_length_mul _ bound hmem
    _ ≤ retries * bound := Nat.mul_le_mul_right bound h.2.2.1

theorem getWithCoalescing_bounded_witness :
    (∀ n : Nat, (fun _ : Nat => 7) n ≤ 7) ∧
    (getWithCoalescing (fun _ => (none : Option Nat)) (fun _ => true) 3
      (fun _ => 7)).sleeps.sum ≤ 3 * 7 :=
  ⟨fun _ => Nat.le_refl 7,
    (getWithCoalescing_bounded (fun _ => (none : Option Nat)) (fun _ => true) 3
      (fun _ => 7)).2.2.2 7 (fun _ => Nat.le_refl 7)⟩

end Spec2Proof
